import Mathlib

/-!
Verification of the client-side relationship aggregation and layout engine of
the Epsdoc network-ui repository, against its natural-language specification.

The TypeScript sources are shallowly embedded: JavaScript `Map`s become
insertion-ordered association lists, `Set`s become insertion-ordered
duplicate-free lists, numbers become `Nat`/`Int`/`Rat` (or `Real` where the
code uses transcendental math), nullable values become `Option`, and effectful
code (timers, network collaborators) becomes explicit state passing with the
collaborators supplied as function parameters.
-/

set_option maxHeartbeats 1000000

namespace Epsdoc

/-! ## Association lists: the embedding of JavaScript `Map`

JS `Map` preserves insertion order; `set` on an existing key updates the entry
in place, `set` on a fresh key appends.  We model a `Map` as a `List (κ × β)`
whose key order is insertion order. -/

variable {κ : Type} [DecidableEq κ] {β : Type}

/-- `Map.get`: the value at the first matching key. -/
def alook : List (κ × β) → κ → Option β
  | [], _ => none
  | (k, v) :: r, x => if k = x then some v else alook r x

/-- `Map.has`. -/
def ahas (m : List (κ × β)) (k : κ) : Bool := (alook m k).isSome

/-- `Map.set`: update in place when the key is present, append otherwise. -/
def aset : List (κ × β) → κ → β → List (κ × β)
  | [], k, v => [(k, v)]
  | (k', v') :: r, k, v => if k' = k then (k, v) :: r else (k', v') :: aset r k v

/-- Update the value at a key with a function, a no-op when the key is absent
(the embedding of the optional-chaining pattern `map.get(k)?.mutate()`). -/
def aupd : List (κ × β) → κ → (β → β) → List (κ × β)
  | [], _, _ => []
  | (k', v') :: r, k, f => if k' = k then (k', f v') :: r else (k', v') :: aupd r k f

/-- The key list of a map, in insertion order. -/
def akeys (m : List (κ × β)) : List κ := m.map (fun p => p.1)

theorem alook_append_of_isSome (m₁ m₂ : List (κ × β)) (k : κ)
    (h : (alook m₁ k).isSome) : alook (m₁ ++ m₂) k = alook m₁ k := by
  induction m₁ with
  | nil => simp [alook] at h
  | cons p r ih =>
    obtain ⟨k', v'⟩ := p
    by_cases hp : k' = k
    · simp [alook, hp]
    · simp [alook, hp] at h ⊢
      exact ih h

theorem alook_append_of_none (m₁ m₂ : List (κ × β)) (k : κ)
    (h : alook m₁ k = none) : alook (m₁ ++ m₂) k = alook m₂ k := by
  induction m₁ with
  | nil => simp
  | cons p r ih =>
    obtain ⟨k', v'⟩ := p
    by_cases hp : k' = k
    · simp [alook, hp] at h
    · simp [alook, hp] at h ⊢
      exact ih h

theorem alook_isSome_iff_mem_keys (m : List (κ × β)) (k : κ) :
    (alook m k).isSome ↔ k ∈ akeys m := by
  induction m with
  | nil => simp [alook, akeys]
  | cons p r ih =>
    obtain ⟨k', v'⟩ := p
    by_cases h : k' = k
    · subst h; simp [alook, akeys]
    · have h' : ¬ k = k' := fun hk => h hk.symm
      simp [alook, akeys, h, h', ih]

theorem alook_eq_none_iff_not_mem_keys (m : List (κ × β)) (k : κ) :
    alook m k = none ↔ k ∉ akeys m := by
  rw [← alook_isSome_iff_mem_keys]
  cases alook m k <;> simp

theorem alook_mem (m : List (κ × β)) (k : κ) (v : β) :
    alook m k = some v → (k, v) ∈ m := by
  induction m with
  | nil => intro h; simp [alook] at h
  | cons p r ih =>
    obtain ⟨k', v'⟩ := p
    intro h
    by_cases hp : k' = k
    · subst hp
      simp [alook] at h
      subst h
      exact List.mem_cons_self _ _
    · simp [alook, hp] at h
      exact List.mem_cons_of_mem _ (ih h)

theorem alook_aupd (m : List (κ × β)) (k : κ) (f : β → β) (x : κ) :
    alook (aupd m k f) x =
      if x = k then (alook m k).map f else alook m x := by
  induction m with
  | nil => simp [aupd, alook]
  | cons p r ih =>
    obtain ⟨k', v'⟩ := p
    by_cases hp : k' = k
    · subst hp
      by_cases hx : x = k'
      · subst hx; simp [aupd, alook]
      · have h1 : ¬ (k' = x) := fun h => hx h.symm
        simp [aupd, alook, h1, hx]
    · by_cases hx : x = k
      · subst hx
        have h1 : ¬ (k' = x) := hp
        simp [aupd, alook, hp, h1, ih]
      · by_cases hpx : k' = x
        · subst hpx
          simp [aupd, alook, hp, hx]
        · simp [aupd, alook, hp, hx, hpx, ih]

theorem akeys_aupd (m : List (κ × β)) (k : κ) (f : β → β) :
    akeys (aupd m k f) = akeys m := by
  induction m with
  | nil => rfl
  | cons p r ih =>
    obtain ⟨k', v'⟩ := p
    by_cases hp : k' = k
    · simp [aupd, akeys, hp]
    · simp only [aupd, hp, if_neg hp, akeys, List.map_cons]
      simpa [akeys] using ih

theorem alook_aset (m : List (κ × β)) (k : κ) (v : β) (x : κ) :
    alook (aset m k v) x = if x = k then some v else alook m x := by
  induction m with
  | nil =>
    by_cases hx : x = k
    · subst hx; simp [aset, alook]
    · have h1 : ¬ (k = x) := fun h => hx h.symm
      simp [aset, alook, hx, h1]
  | cons p r ih =>
    obtain ⟨k', v'⟩ := p
    by_cases hp : k' = k
    · subst hp
      by_cases hx : x = k'
      · subst hx; simp [aset, alook]
      · have h1 : ¬ (k' = x) := fun h => hx h.symm
        simp [aset, alook, hx, h1]
    · by_cases hx : x = k
      · subst hx
        have h1 : ¬ (k' = x) := hp
        simp [aset, alook, hp, h1, ih]
      · by_cases hpx : k' = x
        · subst hpx
          simp [aset, alook, hp, hx]
        · simp [aset, alook, hp, hx, hpx, ih]

theorem akeys_aset (m : List (κ × β)) (k : κ) (v : β) :
    akeys (aset m k v) = if k ∈ akeys m then akeys m else akeys m ++ [k] := by
  induction m with
  | nil => simp [aset, akeys]
  | cons p r ih =>
    obtain ⟨k', v'⟩ := p
    by_cases hp : k' = k
    · subst hp; simp [aset, akeys]
    · have h' : ¬ k = k' := fun hk => hp hk.symm
      simp only [aset, if_neg hp, akeys, List.map_cons] at ih ⊢
      rw [ih]
      by_cases hm : k ∈ akeys r
      · simp only [akeys] at hm
        simp [hm, h']
      · simp only [akeys] at hm
        simp [hm, h']

/-- The embedding of `Set.add` on a JS `Set` held as an insertion-ordered
duplicate-free list. -/
def sadd (s : List κ) (x : κ) : List κ := if x ∈ s then s else s ++ [x]

theorem mem_sadd (s : List κ) (x y : κ) : y ∈ sadd s x ↔ y ∈ s ∨ y = x := by
  by_cases h : x ∈ s <;> simp [sadd, h]
  intro he; subst he; tauto

/-! ## The relationship record

Modelled from the spec: the repository's `types.ts` is not among the provided
sources; the spec's RelationshipRecord lists identifier, actor, action, target,
nullable timestamp, nullable location, document reference, tags and an optional
topic label, which matches every field the provided components read. -/

structure Rel where
  id : Int
  actor : String
  action : String
  target : String
  timestamp : Option String
  location : Option String
  doc_id : String
  tags : List String
  explicit_topic : Option String
  deriving DecidableEq, Repr

/-- JavaScript truthiness of a nullable string (`null`, `undefined` and the
empty string are falsy). -/
def truthyStr : Option String → Bool
  | none => false
  | some s => !(s == "")

/-! ## String utilities shared by the embedded sources -/

/-- Whether the character list starts with the given pattern. -/
def listHasPre : List Char → List Char → Bool
  | [], _ => true
  | _ :: _, [] => false
  | a :: as, b :: bs => a == b && listHasPre as bs

/-- Whether the pattern occurs somewhere in the character list. -/
def listHasSub (l sub : List Char) : Bool :=
  listHasPre sub l ||
    (match l with
     | [] => false
     | _ :: ls => listHasSub ls sub)

/-- `String.prototype.includes`. -/
def strIncludes (s sub : String) : Bool := listHasSub s.toList sub.toList

/-- `String.prototype.toLowerCase` (character-wise, so concrete runs reduce
inside the kernel). -/
def strToLower (s : String) : String := ⟨s.data.map Char.toLower⟩

/-! ## A stable sort

`Array.prototype.sort` is stable, and a stable sort's output is uniquely
determined by the (total, transitive) comparison, so any stable sort embeds it.
We use a structurally recursive insertion sort so that concrete runs reduce
inside the kernel. -/

section StableSort

variable {α : Type} (le : α → α → Bool)

/-- Insert `x` after every element that may come before it (so elements that
compare equal keep their original relative order). -/
def sinsert (x : α) : List α → List α
  | [] => [x]
  | y :: ys => if le y x then y :: sinsert x ys else x :: y :: ys

/-- Stable insertion sort. -/
def stableSort (l : List α) : List α := l.foldl (fun acc x => sinsert le x acc) []

theorem sinsert_perm (x : α) (l : List α) : (sinsert le x l).Perm (x :: l) := by
  induction l with
  | nil => simp [sinsert]
  | cons y ys ih =>
    by_cases h : le y x = true
    · simp only [sinsert, if_pos h]
      exact ((ih.cons y).trans (List.Perm.swap x y ys)).symm.symm
    · simp [sinsert, h]

theorem mem_sinsert (x a : α) (l : List α) : a ∈ sinsert le x l ↔ a = x ∨ a ∈ l := by
  rw [(sinsert_perm le x l).mem_iff]
  simp

theorem sinsert_sorted (htrans : ∀ a b c, le a b = true → le b c = true → le a c = true)
    (htotal : ∀ a b, le a b = true ∨ le b a = true) (x : α) (l : List α)
    (hl : l.Pairwise (fun a b => le a b = true)) :
    (sinsert le x l).Pairwise (fun a b => le a b = true) := by
  induction l with
  | nil => simp [sinsert]
  | cons y ys ih =>
    rw [List.pairwise_cons] at hl
    by_cases h : le y x = true
    · simp only [sinsert, if_pos h]
      rw [List.pairwise_cons]
      constructor
      · intro a ha
        rw [mem_sinsert] at ha
        rcases ha with rfl | ha
        · exact h
        · exact hl.1 a ha
      · exact ih hl.2
    · have hxy : le x y = true := (htotal x y).resolve_right (fun hc => h hc)
      simp only [sinsert, if_neg h]
      rw [List.pairwise_cons]
      constructor
      · intro a ha
        rcases List.mem_cons.mp ha with rfl | ha
        · exact hxy
        · exact htrans x y a hxy (hl.1 a ha)
      · exact List.pairwise_cons.mpr hl

theorem stableSort_perm (l : List α) : (stableSort le l).Perm l := by
  suffices h : ∀ acc : List α, (l.foldl (fun acc x => sinsert le x acc) acc).Perm (acc ++ l) by
    simpa using h []
  induction l with
  | nil => simp
  | cons x xs ih =>
    intro acc
    simp only [List.foldl_cons]
    refine (ih (sinsert le x acc)).trans ?_
    refine (List.Perm.append_right xs (sinsert_perm le x acc)).trans ?_
    exact List.perm_middle.symm

theorem stableSort_sorted (htrans : ∀ a b c, le a b = true → le b c = true → le a c = true)
    (htotal : ∀ a b, le a b = true ∨ le b a = true) (l : List α) :
    (stableSort le l).Pairwise (fun a b => le a b = true) := by
  suffices h : ∀ acc : List α, acc.Pairwise (fun a b => le a b = true) →
      (l.foldl (fun acc x => sinsert le x acc) acc).Pairwise (fun a b => le a b = true) by
    exact h [] List.Pairwise.nil
  induction l with
  | nil => intro acc hacc; simpa using hacc
  | cons x xs ih =>
    intro acc hacc
    simp only [List.foldl_cons]
    exact ih _ (sinsert_sorted le htrans htotal x acc hacc)

theorem mem_stableSort (l : List α) (a : α) : a ∈ stableSort le l ↔ a ∈ l :=
  (stableSort_perm le l).mem_iff

end StableSort

/-! ## locations.ts -/

/-- The static name → coordinate table `LOCATION_COORDS` (insertion order of
the object literal preserved). -/
def LOCATION_COORDS : List (String × ℚ × ℚ) := [
  ("New York", (41.0, -74.0)),
  ("New York City", (41.0, -74.0)),
  ("Manhattan", (40.7831, -73.9712)),
  ("Palm Beach", (26.7, -80.0)),
  ("Palm Beach, FL", (26.7, -80.0)),
  ("Florida", (28.5, -82.5)),
  ("Miami", (25.76, -80.19)),
  ("Washington", (38.9, -77.0)),
  ("Washington, D.C.", (38.9, -77.0)),
  ("Washington DC", (38.9, -77.0)),
  ("Boston", (42.36, -71.06)),
  ("Cambridge", (42.37, -71.11)),
  ("Harvard", (42.38, -71.12)),
  ("New Jersey", (40.06, -74.41)),
  ("Connecticut", (41.60, -72.70)),
  ("Los Angeles", (34.05, -118.24)),
  ("Las Vegas", (36.17, -115.14)),
  ("Santa Fe", (35.69, -105.94)),
  ("New Mexico", (34.52, -105.87)),
  ("Ohio", (40.42, -82.91)),
  ("Texas", (31.97, -99.90)),
  ("California", (36.78, -119.42)),
  ("Arizona", (34.05, -111.09)),
  ("US Virgin Islands", (18.34, -64.90)),
  ("Virgin Islands", (18.34, -64.90)),
  ("Little St. James", (18.30, -64.83)),
  ("St. Thomas", (18.34, -64.89)),
  ("St. James", (18.30, -64.83)),
  ("Caribbean", (19.0, -69.0)),
  ("London", (51.51, -0.13)),
  ("Paris", (48.86, 2.35)),
  ("France", (46.23, 2.21)),
  ("Monaco", (43.74, 7.42)),
  ("Switzerland", (46.82, 8.23)),
  ("Israel", (31.05, 34.85)),
  ("Tel Aviv", (32.09, 34.78)),
  ("Japan", (36.20, 138.25)),
  ("Tokyo", (35.68, 139.65)),
  ("Australia", (-25.27, 133.78)),
  ("Africa", (8.78, 34.51)),
  ("Morocco", (31.79, -7.09)),
  ("International", (0, 0)),
  ("Unknown", (0, 0))]

/-- `getLocationCoords`: direct table hit, then the two-way substring scan over
the table, then the hard-coded pattern fallbacks, else `null`. -/
def getLocationCoords (location : String) : Option (ℚ × ℚ) :=
  if location = "" then none
  else
    match alook LOCATION_COORDS location with
    | some direct => some direct
    | none =>
      let locationLower := strToLower location
      match LOCATION_COORDS.find? (fun e =>
          strIncludes locationLower (strToLower e.1) || strIncludes (strToLower e.1) locationLower) with
      | some e => some e.2
      | none =>
        if strIncludes locationLower "palm beach" then
          alook LOCATION_COORDS "Palm Beach"
        else if strIncludes locationLower "virgin island" ||
            strIncludes locationLower "st. james" ||
            strIncludes locationLower "little st james" then
          alook LOCATION_COORDS "US Virgin Islands"
        else if strIncludes locationLower "new york" || strIncludes locationLower "nyc" ||
            strIncludes locationLower "manhattan" then
          alook LOCATION_COORDS "New York"
        else if strIncludes locationLower "miami" then
          alook LOCATION_COORDS "Miami"
        else if strIncludes locationLower "florida" || locationLower = "fl" then
          alook LOCATION_COORDS "Florida"
        else if strIncludes locationLower "london" || strIncludes locationLower "uk" ||
            strIncludes locationLower "england" then
          alook LOCATION_COORDS "London"
        else if strIncludes locationLower "paris" then
          alook LOCATION_COORDS "Paris"
        else if strIncludes locationLower "france" then
          alook LOCATION_COORDS "France"
        else if strIncludes locationLower "washington" || strIncludes locationLower "d.c." ||
            strIncludes locationLower "dc" then
          alook LOCATION_COORDS "Washington"
        else if strIncludes locationLower "caribbean" then
          alook LOCATION_COORDS "Caribbean"
        else none

/-- `normalizeLocation`: the canonical display name, most specific first. -/
def normalizeLocation (location : String) : String :=
  if location = "" then "Unknown"
  else
    let loc := strToLower location
    if strIncludes loc "palm beach" then "Palm Beach"
    else if strIncludes loc "virgin island" || strIncludes loc "little st. james" ||
        strIncludes loc "st james" || strIncludes loc "epstein's island" then "US Virgin Islands"
    else if strIncludes loc "new york" || strIncludes loc "manhattan" ||
        strIncludes loc "nyc" then "New York"
    else if strIncludes loc "miami" then "Miami"
    else if strIncludes loc "florida" || loc = "fl" then "Florida"
    else if strIncludes loc "london" || strIncludes loc "uk" ||
        strIncludes loc "england" then "London"
    else if strIncludes loc "paris" then "Paris"
    else if strIncludes loc "france" then "France"
    else if strIncludes loc "washington" || strIncludes loc "d.c." then "Washington DC"
    else if strIncludes loc "los angeles" then "Los Angeles"
    else if strIncludes loc "santa fe" then "Santa Fe"
    else if strIncludes loc "new mexico" then "New Mexico"
    else if strIncludes loc "harvard" || strIncludes loc "cambridge" then "Boston"
    else if strIncludes loc "boston" then "Boston"
    else if strIncludes loc "israel" || strIncludes loc "tel aviv" then "Israel"
    else if strIncludes loc "tokyo" || strIncludes loc "japan" then "Japan"
    else location

/-! ## GlobeView.tsx: grouping events by location -/

/-- The per-location bucket built by GlobeView's `locationData` memo. -/
structure LocationData where
  name : String
  coords : Option (ℚ × ℚ)
  events : List Rel
  people : List String
  isUnknown : Bool := false
  deriving DecidableEq, Repr

/-- The mutable state of the `relationships.forEach` loop in `locationData`. -/
structure LocAgg where
  locations : List (String × LocationData)
  unknownEvents : List Rel
  unknownPeople : List String

/-- A freshly created located bucket (coordinates of the creating record). -/
def freshBucket (normalized : String) (coords : ℚ × ℚ) : LocationData :=
  { name := normalized, coords := some coords, events := [], people := [], isUnknown := false }

/-- `loc.events.push(rel); loc.people.add(rel.actor); loc.people.add(rel.target)`. -/
def bumpBucket (rel : Rel) (l : LocationData) : LocationData :=
  { l with events := l.events ++ [rel],
           people := sadd (sadd l.people rel.actor) rel.target }

/-- One iteration of the `locationData` loop: a record with a falsy location or
an unresolvable location goes to the unknown accumulator, otherwise into the
bucket keyed by its normalized name (created on first use, with the coordinates
of the record that created it). -/
def locStep (st : LocAgg) (rel : Rel) : LocAgg :=
  if !truthyStr rel.location then
    { st with unknownEvents := st.unknownEvents ++ [rel],
              unknownPeople := sadd (sadd st.unknownPeople rel.actor) rel.target }
  else
    let locStr := rel.location.getD ""
    let normalized := normalizeLocation locStr
    match getLocationCoords locStr with
    | none =>
      { st with unknownEvents := st.unknownEvents ++ [rel],
                unknownPeople := sadd (sadd st.unknownPeople rel.actor) rel.target }
    | some coords =>
      let locations₁ :=
        if ahas st.locations normalized then st.locations
        else aset st.locations normalized (freshBucket normalized coords)
      { st with locations := aupd locations₁ normalized (bumpBucket rel) }

def locAggregate (relationships : List Rel) : LocAgg :=
  relationships.foldl locStep ⟨[], [], []⟩

/-- `locationData`: the located buckets, sorted by descending event count
(stable, as JS `Array.prototype.sort` is). -/
def locationDataOf (relationships : List Rel) : List LocationData :=
  stableSort (fun a b => b.events.length ≤ a.events.length)
    ((locAggregate relationships).locations.map (fun p => p.2))

/-- `unknownLocationData`: the synthetic bucket, present only when non-empty. -/
def unknownLocationData (relationships : List Rel) : Option LocationData :=
  let st := locAggregate relationships
  if st.unknownEvents.length > 0 then
    some { name := "Unknown/Unspecified", coords := none,
           events := st.unknownEvents, people := st.unknownPeople, isUnknown := true }
  else none

/-- Whether a record's location is truthy and resolves to known coordinates,
i.e. whether `locationData` routes it to a located bucket. -/
def resolvesLocation (rel : Rel) : Bool :=
  truthyStr rel.location && (getLocationCoords (rel.location.getD "")).isSome

/-- The Bool predicate selecting the records of the located bucket `name`. -/
def inBucket (name : String) (r : Rel) : Bool :=
  resolvesLocation r && (normalizeLocation (r.location.getD "") == name)

theorem locAgg_spec (rels : List Rel) :
    (∀ name ld, alook (locAggregate rels).locations name = some ld →
        ld.name = name ∧ ld.events = rels.filter (inBucket name))
    ∧ (∀ name, alook (locAggregate rels).locations name = none →
        rels.filter (inBucket name) = [])
    ∧ (locAggregate rels).unknownEvents = rels.filter (fun r => !resolvesLocation r)
    ∧ (akeys (locAggregate rels).locations).Nodup := by
  induction rels using List.reverseRecOn with
  | nil =>
    refine ⟨?_, ?_, rfl, List.nodup_nil⟩ <;> intro name <;> simp [locAggregate, alook]
  | append_singleton rels r ih =>
    obtain ⟨ihSome, ihNone, ihUnk, ihNodup⟩ := ih
    have hfold : locAggregate (rels ++ [r]) = locStep (locAggregate rels) r := by
      simp [locAggregate]
    by_cases hres : resolvesLocation r = true
    case pos =>
      have htr : truthyStr r.location = true := by
        simp [resolvesLocation] at hres
        exact hres.1
      have hsome : (getLocationCoords (r.location.getD "")).isSome := by
        simp [resolvesLocation, htr] at hres
        exact hres
      obtain ⟨c, hc⟩ := Option.isSome_iff_exists.mp hsome
      have hbump : ∀ name, inBucket name r =
          (normalizeLocation (r.location.getD "") == name) := by
        intro name
        simp only [inBucket, hres, Bool.true_and]
      have hstepL : (locAggregate (rels ++ [r])).locations =
          aupd (if ahas (locAggregate rels).locations (normalizeLocation (r.location.getD ""))
                then (locAggregate rels).locations
                else aset (locAggregate rels).locations
                  (normalizeLocation (r.location.getD ""))
                  (freshBucket (normalizeLocation (r.location.getD "")) c))
            (normalizeLocation (r.location.getD "")) (bumpBucket r) := by
        rw [hfold]
        simp [locStep, htr, hc]
      have hstepU : (locAggregate (rels ++ [r])).unknownEvents =
          (locAggregate rels).unknownEvents := by
        rw [hfold]
        simp [locStep, htr, hc]
      refine ⟨?_, ?_, ?_, ?_⟩
      · intro name ld hld
        rw [hstepL, alook_aupd] at hld
        by_cases hname : name = normalizeLocation (r.location.getD "")
        · rw [if_pos hname] at hld
          by_cases hhas : ahas (locAggregate rels).locations
              (normalizeLocation (r.location.getD "")) = true
          · obtain ⟨old, hold⟩ := Option.isSome_iff_exists.mp hhas
            rw [if_pos hhas, hold] at hld
            simp at hld
            obtain ⟨hon, hoe⟩ := ihSome _ old hold
            subst hld
            refine ⟨by simpa [bumpBucket, hname] using hon, ?_⟩
            rw [List.filter_append]
            simp [bumpBucket, hoe, hname, hbump]
          · have hno : alook (locAggregate rels).locations
                (normalizeLocation (r.location.getD "")) = none := by
              rcases h : alook (locAggregate rels).locations
                  (normalizeLocation (r.location.getD "")) with _ | v
              · rfl
              · exact absurd (by simp [ahas, h]) hhas
            rw [if_neg hhas, alook_aset, if_pos rfl] at hld
            simp at hld
            subst hld
            have hfe := ihNone _ hno
            subst hname
            refine ⟨by simp [bumpBucket, freshBucket], ?_⟩
            rw [List.filter_append]
            simp [bumpBucket, freshBucket, hfe, hbump]
        · rw [if_neg hname] at hld
          have hbase : alook (if ahas (locAggregate rels).locations
                (normalizeLocation (r.location.getD ""))
              then (locAggregate rels).locations
              else aset (locAggregate rels).locations
                (normalizeLocation (r.location.getD ""))
                (freshBucket (normalizeLocation (r.location.getD "")) c)) name =
              alook (locAggregate rels).locations name := by
            by_cases hhas : ahas (locAggregate rels).locations
                (normalizeLocation (r.location.getD "")) = true
            · rw [if_pos hhas]
            · rw [if_neg hhas, alook_aset, if_neg hname]
          rw [hbase] at hld
          obtain ⟨h1, h2⟩ := ihSome name ld hld
          refine ⟨h1, ?_⟩
          rw [List.filter_append, h2]
          have hfr : inBucket name r = false := by
            rw [hbump]
            exact beq_eq_false_iff_ne.mpr (fun h => hname h.symm)
          simp [hfr]
      · intro name hnone
        rw [hstepL, alook_aupd] at hnone
        by_cases hname : name = normalizeLocation (r.location.getD "")
        · exfalso
          rw [if_pos hname] at hnone
          by_cases hhas : ahas (locAggregate rels).locations
              (normalizeLocation (r.location.getD "")) = true
          · obtain ⟨old, hold⟩ := Option.isSome_iff_exists.mp hhas
            rw [if_pos hhas, hold] at hnone
            simp at hnone
          · rw [if_neg hhas, alook_aset, if_pos rfl] at hnone
            simp at hnone
        · rw [if_neg hname] at hnone
          have hbase : alook (if ahas (locAggregate rels).locations
                (normalizeLocation (r.location.getD ""))
              then (locAggregate rels).locations
              else aset (locAggregate rels).locations
                (normalizeLocation (r.location.getD ""))
                (freshBucket (normalizeLocation (r.location.getD "")) c)) name =
              alook (locAggregate rels).locations name := by
            by_cases hhas : ahas (locAggregate rels).locations
                (normalizeLocation (r.location.getD "")) = true
            · rw [if_pos hhas]
            · rw [if_neg hhas, alook_aset, if_neg hname]
          rw [hbase] at hnone
          rw [List.filter_append, ihNone name hnone]
          have hfr : inBucket name r = false := by
            rw [hbump]
            exact beq_eq_false_iff_ne.mpr (fun h => hname h.symm)
          simp [hfr]
      · rw [hstepU, ihUnk, List.filter_append]
        simp [hres]
      · rw [hstepL, akeys_aupd]
        by_cases hhas : ahas (locAggregate rels).locations
            (normalizeLocation (r.location.getD "")) = true
        · rw [if_pos hhas]
          exact ihNodup
        · rw [if_neg hhas, akeys_aset]
          have hmem : normalizeLocation (r.location.getD "") ∉
              akeys (locAggregate rels).locations := by
            rw [← alook_isSome_iff_mem_keys]
            simpa [ahas] using hhas
          rw [if_neg hmem]
          simp [List.nodup_append, ihNodup, hmem]
    case neg =>
      have hresf : resolvesLocation r = false := Bool.eq_false_iff.mpr hres
      have hstep : (locAggregate (rels ++ [r])).locations = (locAggregate rels).locations ∧
          (locAggregate (rels ++ [r])).unknownEvents =
            (locAggregate rels).unknownEvents ++ [r] := by
        rw [hfold]
        by_cases htr : truthyStr r.location = true
        · have hc : getLocationCoords (r.location.getD "") = none := by
            simp [resolvesLocation, htr] at hresf
            simpa [Option.isSome_iff_exists] using hresf
          constructor
          · simp [locStep, htr, hc]
          · simp [locStep, htr, hc]
        · have htr' : truthyStr r.location = false := Bool.eq_false_iff.mpr htr
          constructor
          · simp [locStep, htr']
          · simp [locStep, htr']
      refine ⟨?_, ?_, ?_, ?_⟩
      · intro name ld hld
        rw [hstep.1] at hld
        obtain ⟨h1, h2⟩ := ihSome name ld hld
        refine ⟨h1, ?_⟩
        rw [List.filter_append, h2]
        simp [inBucket, hresf]
      · intro name hnone
        rw [hstep.1] at hnone
        rw [List.filter_append, ihNone name hnone]
        simp [inBucket, hresf]
      · rw [hstep.2, ihUnk, List.filter_append]
        simp [hresf]
      · rw [hstep.1]
        exact ihNodup

theorem alook_of_mem_nodup {κ β : Type} [DecidableEq κ] (m : List (κ × β))
    (hnd : (akeys m).Nodup) (k : κ) (v : β) (h : (k, v) ∈ m) : alook m k = some v := by
  induction m with
  | nil => simp at h
  | cons p m' ih =>
    obtain ⟨k', v'⟩ := p
    rcases List.mem_cons.mp h with heq | hmem
    · cases heq
      simp [alook]
    · have hnd1 : (k' :: akeys m').Nodup := hnd
      have hnd0 := List.nodup_cons.mp hnd1
      have hne : k' ≠ k := by
        rintro rfl
        exact hnd0.1 (List.mem_map.mpr ⟨(k', v), hmem, rfl⟩)
      have hnd' : (akeys m').Nodup := hnd0.2
      simpa [alook, hne] using ih hnd' hmem

theorem count_filter_of_neg {α : Type} [DecidableEq α] {p : α → Bool} {a : α}
    (h : p a = false) (l : List α) : (l.filter p).count a = 0 := by
  rw [List.count_eq_zero]
  intro hmem
  have := List.of_mem_filter hmem
  rw [h] at this
  exact Bool.noConfusion this

theorem count_filter_ite {α : Type} [DecidableEq α] (p : α → Bool) (a : α) (l : List α) :
    (l.filter p).count a = if p a = true then l.count a else 0 := by
  by_cases h : p a = true
  · rw [if_pos h, List.count_filter h]
  · rw [if_neg h]
    exact count_filter_of_neg (by simpa using h) l

theorem bucket_count_sum (rels : List Rel) (rc : Rel) :
    ∀ m : List (String × LocationData), (akeys m).Nodup →
      (∀ k ld, alook m k = some ld → ld.events = rels.filter (inBucket k)) →
      (m.map (fun p => p.2.events.count rc)).sum =
        if resolvesLocation rc = true ∧ normalizeLocation (rc.location.getD "") ∈ akeys m
        then rels.count rc else 0 := by
  intro m
  induction m with
  | nil =>
    intro _ _
    simp [akeys]
  | cons p m' ih =>
    intro hnd hchar
    obtain ⟨k, ld⟩ := p
    have hnd1 : (k :: akeys m').Nodup := hnd
    have hk : k ∉ akeys m' := (List.nodup_cons.mp hnd1).1
    have hnd' : (akeys m').Nodup := (List.nodup_cons.mp hnd1).2
    have hev : ld.events = rels.filter (inBucket k) := hchar k ld (by simp [alook])
    have hchar' : ∀ k' ld', alook m' k' = some ld' → ld'.events = rels.filter (inBucket k') := by
      intro k' ld' h'
      have hkk : k ≠ k' := by
        rintro rfl
        exact hk ((alook_isSome_iff_mem_keys m' k).mp (by simp [h']))
      apply hchar
      simpa [alook, hkk] using h'
    have htail := ih hnd' hchar'
    have hhead : ld.events.count rc =
        if inBucket k rc = true then rels.count rc else 0 := by
      rw [hev, count_filter_ite]
    have hcons : ((((k, ld) :: m').map (fun p => p.2.events.count rc)).sum) =
        ld.events.count rc + (m'.map (fun p => p.2.events.count rc)).sum := by
      simp
    have hmemcons : (normalizeLocation (rc.location.getD "") ∈ akeys ((k, ld) :: m')) ↔
        (normalizeLocation (rc.location.getD "") = k ∨
          normalizeLocation (rc.location.getD "") ∈ akeys m') :=
      List.mem_cons
    rw [hcons, hhead, htail]
    by_cases hres : resolvesLocation rc = true
    · by_cases hkr : normalizeLocation (rc.location.getD "") = k
      · have hib : inBucket k rc = true := by
          simp [inBucket, hres, hkr]
        have hmem' : normalizeLocation (rc.location.getD "") ∉ akeys m' := by
          rw [hkr]; exact hk
        rw [if_pos hib, if_neg (fun h => hmem' h.2),
          if_pos ⟨hres, hmemcons.mpr (Or.inl hkr)⟩]
        omega
      · have hib : ¬ (inBucket k rc = true) := by
          simp [inBucket, hres]
          exact hkr
        rw [if_neg hib]
        by_cases hmem : normalizeLocation (rc.location.getD "") ∈ akeys m'
        · rw [if_pos ⟨hres, hmem⟩, if_pos ⟨hres, hmemcons.mpr (Or.inr hmem)⟩]
          omega
        · rw [if_neg (fun h => hmem h.2),
            if_neg (fun h => ((hmemcons.mp h.2).elim hkr hmem))]
    · have hib : ¬ (inBucket k rc = true) := by
        simp [inBucket]
        intro h
        exact absurd h hres
      rw [if_neg hib, if_neg (fun h => hres h.1), if_neg (fun h => hres h.1)]

theorem unknownLocationData_eq (rels : List Rel) :
    unknownLocationData rels =
      if (locAggregate rels).unknownEvents.length > 0 then
        some { name := "Unknown/Unspecified", coords := none,
               events := (locAggregate rels).unknownEvents,
               people := (locAggregate rels).unknownPeople, isUnknown := true }
      else none := rfl

/-- All buckets produced by GlobeView's `locationData` memo: the located
buckets plus the synthetic Unknown/Unspecified bucket when present. -/
def allLocationBuckets (rels : List Rel) : List LocationData :=
  locationDataOf rels ++ (unknownLocationData rels).toList

/-- Core counting fact shared by several theorems: across all buckets of the
location aggregation, every record is counted exactly as often as it occurs in
the input — no record dropped, none duplicated. -/
theorem allBuckets_count_sum (rels : List Rel) (rc : Rel) :
    ((allLocationBuckets rels).map (fun b => b.events.count rc)).sum = rels.count rc := by
  obtain ⟨chSome, chNone, chUnk, chNodup⟩ := locAgg_spec rels
  have hperm : (locationDataOf rels).Perm ((locAggregate rels).locations.map (fun p => p.2)) :=
    stableSort_perm _ _
  rw [allLocationBuckets, List.map_append, List.sum_append]
  have hsum1 : ((locationDataOf rels).map (fun b => b.events.count rc)).sum =
      ((locAggregate rels).locations.map (fun p => p.2.events.count rc)).sum := by
    rw [(hperm.map (fun b => b.events.count rc)).sum_eq]
    rw [List.map_map]
    rfl
  rw [hsum1, bucket_count_sum rels rc _ chNodup (fun k ld h => (chSome k ld h).2)]
  by_cases hres : resolvesLocation rc = true
  · have hunk0 : (((unknownLocationData rels).toList).map
        (fun b => b.events.count rc)).sum = 0 := by
      rw [unknownLocationData_eq]
      by_cases hu : (locAggregate rels).unknownEvents.length > 0
      · simp only [if_pos hu, Option.toList_some, List.map_cons, List.map_nil,
          List.sum_cons, List.sum_nil]
        rw [chUnk, count_filter_of_neg (by simp [hres])]
        omega
      · simp [if_neg hu]
    rw [hunk0]
    by_cases hmem : normalizeLocation (rc.location.getD "") ∈
        akeys (locAggregate rels).locations
    · simp [hres, hmem]
    · rw [if_neg (fun h => hmem h.2)]
      have hnone := chNone _ (alook_eq_none_iff_not_mem_keys _ _ |>.mpr hmem)
      have h0 : (rels.filter
          (inBucket (normalizeLocation (rc.location.getD "")))).count rc = 0 := by
        rw [hnone]; rfl
      rw [count_filter_ite] at h0
      have hib : inBucket (normalizeLocation (rc.location.getD "")) rc = true := by
        simp [inBucket, hres]
      rw [if_pos hib] at h0
      omega
  · rw [if_neg (fun h => hres h.1), Nat.zero_add]
    have hresf : resolvesLocation rc = false := by simpa using hres
    rw [unknownLocationData_eq]
    by_cases hu : (locAggregate rels).unknownEvents.length > 0
    · simp only [if_pos hu, Option.toList_some, List.map_cons, List.map_nil,
        List.sum_cons, List.sum_nil, Nat.add_zero]
      rw [chUnk, List.count_filter (by simp [hresf])]
    · have hempty : (locAggregate rels).unknownEvents = [] := by
        cases h : (locAggregate rels).unknownEvents with
        | nil => rfl
        | cons a l => rw [h] at hu; simp at hu
      have hfe : rels.filter (fun r => !resolvesLocation r) = [] := by
        rw [← chUnk]; exact hempty
      have h0 : (rels.filter (fun r => !resolvesLocation r)).count rc = 0 := by
        rw [hfe]; rfl
      rw [List.count_filter (by simp [hresf])] at h0
      simp [if_neg hu, h0]

/-- C1: the location aggregation partitions the input: every record is counted
exactly once across the located buckets plus the synthetic bucket; a record in
a located bucket resolves to known coordinates and its normalized location is
the bucket's name; a record in the synthetic bucket does not resolve (this
includes null locations, which are not truthy, hence do not resolve); and
located bucket names are pairwise distinct, so no record can sit in two
buckets. -/
theorem locationData_partition (rels : List Rel) :
    (∀ rc : Rel, ((allLocationBuckets rels).map (fun b => b.events.count rc)).sum =
        rels.count rc)
    ∧ (∀ b ∈ locationDataOf rels, ∀ rc ∈ b.events,
        resolvesLocation rc = true ∧ normalizeLocation (rc.location.getD "") = b.name)
    ∧ (∀ b ∈ (unknownLocationData rels).toList, ∀ rc ∈ b.events,
        resolvesLocation rc = false)
    ∧ ((locationDataOf rels).map (fun b => b.name)).Nodup := by
  obtain ⟨chSome, chNone, chUnk, chNodup⟩ := locAgg_spec rels
  have hperm : (locationDataOf rels).Perm ((locAggregate rels).locations.map (fun p => p.2)) :=
    stableSort_perm _ _
  have hnames : ∀ p ∈ (locAggregate rels).locations,
      p.2.name = p.1 ∧ p.2.events = rels.filter (inBucket p.1) := by
    intro p hp
    exact chSome p.1 p.2 (alook_of_mem_nodup _ chNodup p.1 p.2 hp)
  refine ⟨allBuckets_count_sum rels, ?_, ?_, ?_⟩
  · intro b hb rc hrc
    have hbm : b ∈ (locAggregate rels).locations.map (fun p => p.2) := hperm.mem_iff.mp hb
    obtain ⟨p, hp, hpb⟩ := List.mem_map.mp hbm
    obtain ⟨hpn, hpe⟩ := hnames p hp
    rw [← hpb] at hrc ⊢
    rw [hpe] at hrc
    have hib := List.of_mem_filter hrc
    simp only [inBucket, Bool.and_eq_true, beq_iff_eq] at hib
    exact ⟨hib.1, by rw [hib.2, hpn]⟩
  · intro b hb rc hrc
    rw [unknownLocationData_eq] at hb
    by_cases hu : (locAggregate rels).unknownEvents.length > 0
    · rw [if_pos hu] at hb
      simp only [Option.toList_some, List.mem_singleton] at hb
      subst hb
      simp only at hrc
      rw [chUnk] at hrc
      have := List.of_mem_filter hrc
      simpa using this
    · rw [if_neg hu] at hb
      simp at hb
  · have : ((locationDataOf rels).map (fun b => b.name)).Perm
        (((locAggregate rels).locations.map (fun p => p.2)).map (fun b => b.name)) :=
      hperm.map _
    rw [this.nodup_iff]
    have heq : ((locAggregate rels).locations.map (fun p => p.2)).map (fun b => b.name) =
        akeys (locAggregate rels).locations := by
      rw [List.map_map]
      apply List.map_congr_left
      intro p hp
      exact (hnames p hp).1
    rw [heq]
    exact chNodup

/-! ## NetworkView.tsx: the flat graph (top 200 entities by connection count) -/

/-- Lexicographic comparison of character lists (JS default string order,
restricted to the basic multilingual plane where code units and code points
coincide). -/
def charListLt : List Char → List Char → Bool
  | [], [] => false
  | [], _ :: _ => true
  | _ :: _, [] => false
  | a :: as, b :: bs => if a < b then true else if b < a then false else charListLt as bs

/-- JS string comparison `a <= b`. -/
def strLeb (a b : String) : Bool := !(charListLt b.data a.data)

/-- `[a, b].sort().join('|')`: the canonical key of an unordered pair. -/
def sortedPairKey (a b : String) : String :=
  if strLeb a b then a ++ "|" ++ b else b ++ "|" ++ a

theorem charListLt_asymm : ∀ a b : List Char, charListLt a b = true →
    charListLt b a = true → False := by
  intro a
  induction a with
  | nil => intro b h1 h2; cases b <;> simp [charListLt] at h1 h2
  | cons x xs ih =>
    intro b h1 h2
    cases b with
    | nil => simp [charListLt] at h1
    | cons y ys =>
      by_cases hxy : x < y
      · have hyx : ¬ y < x := fun h => absurd hxy (lt_asymm h)
        simp [charListLt, hxy, hyx] at h2
      · by_cases hyx : y < x
        · simp [charListLt, hxy, hyx] at h1
        · simp [charListLt, hxy, hyx] at h1 h2
          exact ih ys h1 h2

theorem charListLt_connex : ∀ a b : List Char, a ≠ b →
    charListLt a b = true ∨ charListLt b a = true := by
  intro a
  induction a with
  | nil =>
    intro b hab
    cases b with
    | nil => exact absurd rfl hab
    | cons y ys => left; simp [charListLt]
  | cons x xs ih =>
    intro b hab
    cases b with
    | nil => right; simp [charListLt]
    | cons y ys =>
      by_cases hxy : x < y
      · left
        simp [charListLt, hxy]
      · by_cases hyx : y < x
        · right
          simp [charListLt, hyx]
        · have hx : x = y := le_antisymm (le_of_not_lt hyx) (le_of_not_lt hxy)
          subst hx
          have hxs : xs ≠ ys := by
            intro h
            exact hab (by rw [h])
          have hxx : ¬ (x < x) := lt_irrefl x
          rcases ih ys hxs with h | h
          · left; simp [charListLt, h, hxx]
          · right; simp [charListLt, h, hxx]

theorem sortedPairKey_comm (a b : String) : sortedPairKey a b = sortedPairKey b a := by
  by_cases hab : a = b
  · rw [hab]
  · have hd : a.data ≠ b.data := by
      intro h
      exact hab (by cases a; cases b; exact congrArg String.mk h)
    unfold sortedPairKey strLeb
    rcases charListLt_connex a.data b.data hd with h | h
    · have h' : charListLt b.data a.data = false := by
        cases hc : charListLt b.data a.data
        · rfl
        · exact absurd (charListLt_asymm _ _ h hc) (fun f => f)
      simp [h, h']
    · have h' : charListLt a.data b.data = false := by
        cases hc : charListLt a.data b.data
        · rfl
        · exact absurd (charListLt_asymm _ _ h hc) (fun f => f)
      simp [h, h']

/-- `connectionCount.set(k, (connectionCount.get(k) || 0) + 1)`. -/
def bumpCount (m : List (String × Nat)) (k : String) : List (String × Nat) :=
  aset m k ((alook m k).getD 0 + 1)

/-- The `connectionCount` map: every record increments its actor's count and
its target's count. -/
def connectionCountOf (rels : List Rel) : List (String × Nat) :=
  rels.foldl (fun m rel => bumpCount (bumpCount m rel.actor) rel.target) []

/-- `topEntities`: all entities sorted by descending count (stable), first 200. -/
def topEntities (rels : List Rel) : List (String × Nat) :=
  (stableSort (fun a b => b.2 ≤ a.2) (connectionCountOf rels)).take 200

/-- One iteration of the link-collection loop: keep a link only when both
endpoints are in the top set and differ, deduplicating by unordered-pair key. -/
def linkStep (topSet : List String) (st : List (String × Bool) × List (String × String))
    (rel : Rel) : List (String × Bool) × List (String × String) :=
  if rel.actor ∈ topSet ∧ rel.target ∈ topSet ∧ rel.actor ≠ rel.target then
    if ahas st.1 (sortedPairKey rel.actor rel.target) then st
    else (aset st.1 (sortedPairKey rel.actor rel.target) true,
          st.2 ++ [(rel.actor, rel.target)])
  else st

structure GraphData where
  nodes : List (String × Nat)
  links : List (String × String)

/-- NetworkView's `graphData` memo: top-200 nodes and deduplicated links
between them. -/
def graphData (rels : List Rel) : GraphData :=
  ⟨topEntities rels,
   (rels.foldl (linkStep ((topEntities rels).map (fun p => p.1))) ([], [])).2⟩

/-- How many records mention the entity as actor plus how many mention it as
target (a record with actor = target = e contributes twice). -/
def countOccurrences (rels : List Rel) (e : String) : Nat :=
  (rels.filter (fun r => r.actor == e)).length + (rels.filter (fun r => r.target == e)).length

theorem bumpCount_getD (m : List (String × Nat)) (k x : String) :
    (alook (bumpCount m k) x).getD 0 =
      (alook m x).getD 0 + (if k = x then 1 else 0) := by
  unfold bumpCount
  rw [alook_aset]
  by_cases hx : x = k
  · subst hx
    simp
  · have hk : ¬ (k = x) := fun h => hx h.symm
    rw [if_neg hx, if_neg hk]
    omega

theorem bumpCount_isSome (m : List (String × Nat)) (k x : String) :
    (alook (bumpCount m k) x).isSome = true ↔ x = k ∨ (alook m x).isSome = true := by
  unfold bumpCount
  rw [alook_aset]
  by_cases hx : x = k <;> simp [hx]

theorem bumpCount_keys (m : List (String × Nat)) (k : String) :
    akeys (bumpCount m k) = if k ∈ akeys m then akeys m else akeys m ++ [k] := by
  unfold bumpCount
  exact akeys_aset m k _

theorem connectionCount_spec (rels : List Rel) :
    (∀ e, (alook (connectionCountOf rels) e).getD 0 = countOccurrences rels e)
    ∧ (∀ e c, alook (connectionCountOf rels) e = some c → 0 < c)
    ∧ (akeys (connectionCountOf rels)).Nodup := by
  induction rels using List.reverseRecOn with
  | nil =>
    refine ⟨?_, ?_, by simp [connectionCountOf, akeys]⟩ <;> intro e <;>
      simp [connectionCountOf, alook, countOccurrences]
  | append_singleton rels r ih =>
    obtain ⟨ihVal, ihPos, ihNodup⟩ := ih
    have hstep : connectionCountOf (rels ++ [r]) =
        bumpCount (bumpCount (connectionCountOf rels) r.actor) r.target := by
      simp [connectionCountOf]
    have hocc : ∀ e, countOccurrences (rels ++ [r]) e = countOccurrences rels e +
        ((if r.actor = e then 1 else 0) + (if r.target = e then 1 else 0)) := by
      intro e
      unfold countOccurrences
      rw [List.filter_append, List.filter_append, List.length_append, List.length_append]
      by_cases ha : r.actor = e <;> by_cases ht : r.target = e <;>
        simp [ha, ht] <;> omega
    refine ⟨?_, ?_, ?_⟩
    · intro e
      rw [hstep, bumpCount_getD, bumpCount_getD, ihVal, hocc]
      omega
    · intro e c hc
      rw [hstep] at hc
      unfold bumpCount at hc
      rw [alook_aset] at hc
      by_cases het : e = r.target
      · rw [if_pos het] at hc
        simp at hc
        omega
      · rw [if_neg het, alook_aset] at hc
        by_cases hea : e = r.actor
        · rw [if_pos hea] at hc
          simp at hc
          omega
        · rw [if_neg hea] at hc
          exact ihPos e c hc
    · rw [hstep, bumpCount_keys, bumpCount_keys]
      by_cases h1 : r.actor ∈ akeys (connectionCountOf rels)
      · rw [if_pos h1]
        by_cases h2 : r.target ∈ akeys (connectionCountOf rels)
        · rw [if_pos h2]
          exact ihNodup
        · rw [if_neg h2]
          simp [List.nodup_append, ihNodup, h2]
      · rw [if_neg h1]
        by_cases h2 : r.target ∈ akeys (connectionCountOf rels) ++ [r.actor]
        · rw [if_pos h2]
          simp [List.nodup_append, ihNodup, h1]
        · rw [if_neg h2]
          simp only [List.mem_append, List.mem_singleton] at h2
          push_neg at h2
          have h3 : ¬ (r.actor = r.target) := fun h => h2.2 h.symm
          simp [List.nodup_append, ihNodup, h1, h2.1, h2.2, h3]

theorem linkFold_spec (topSet : List String) (rels : List Rel) :
    ∀ st : List (String × Bool) × List (String × String),
      (∀ l ∈ st.2, l.1 ∈ topSet ∧ l.2 ∈ topSet ∧ l.1 ≠ l.2) →
      (st.2.map (fun l => sortedPairKey l.1 l.2)).Nodup →
      (∀ l ∈ st.2, (alook st.1 (sortedPairKey l.1 l.2)).isSome = true) →
      (∀ l ∈ (rels.foldl (linkStep topSet) st).2, l.1 ∈ topSet ∧ l.2 ∈ topSet ∧ l.1 ≠ l.2) ∧
      ((rels.foldl (linkStep topSet) st).2.map (fun l => sortedPairKey l.1 l.2)).Nodup := by
  induction rels with
  | nil =>
    intro st h1 h2 _
    exact ⟨h1, h2⟩
  | cons r rs ih =>
    intro st h1 h2 h3
    rw [List.foldl_cons]
    by_cases hcond : r.actor ∈ topSet ∧ r.target ∈ topSet ∧ r.actor ≠ r.target
    · by_cases hhas : ahas st.1 (sortedPairKey r.actor r.target) = true
      · have hst : linkStep topSet st r = st := by
          simp [linkStep, hcond, hhas]
        rw [hst]
        exact ih st h1 h2 h3
      · have hst : linkStep topSet st r =
            (aset st.1 (sortedPairKey r.actor r.target) true,
             st.2 ++ [(r.actor, r.target)]) := by
          simp [linkStep, hcond, hhas]
        rw [hst]
        apply ih
        · intro l hl
          rcases List.mem_append.mp hl with hl | hl
          · exact h1 l hl
          · simp only [List.mem_singleton] at hl
            subst hl
            exact hcond
        · rw [List.map_append]
          simp only [List.map_cons, List.map_nil]
          rw [List.nodup_append]
          refine ⟨h2, List.nodup_singleton _, ?_⟩
          intro a ha hb
          simp only [List.mem_singleton] at hb
          subst hb
          obtain ⟨l, hl, hkey⟩ := List.mem_map.mp ha
          have := h3 l hl
          rw [hkey] at this
          exact hhas (by simpa [ahas] using this)
        · intro l hl
          rcases List.mem_append.mp hl with hl | hl
          · have := h3 l hl
            rw [alook_aset]
            by_cases hk : sortedPairKey l.1 l.2 = sortedPairKey r.actor r.target
            · rw [if_pos hk]
              rfl
            · rw [if_neg hk]
              exact this
          · simp only [List.mem_singleton] at hl
            subst hl
            rw [alook_aset, if_pos rfl]
            rfl
    · have hst : linkStep topSet st r = st := by
        simp [linkStep, hcond]
      rw [hst]
      exact ih st h1 h2 h3

theorem strict_sorted_of_distinct_counts (S : List (String × Nat))
    (hsorted : S.Pairwise (fun a b => b.2 ≤ a.2))
    (hdist : (S.map (fun p => p.2)).Nodup) :
    S.Pairwise (fun a b => b.2 < a.2) := by
  have hne : S.Pairwise (fun a b => a.2 ≠ b.2) := List.pairwise_map.mp hdist
  exact (hsorted.and hne).imp (fun h => lt_of_le_of_ne h.1 (fun he => h.2 he.symm))

theorem take_mem_iff_rank (S : List (String × Nat))
    (hsorted : S.Pairwise (fun a b => b.2 < a.2))
    (hkeys : (S.map (fun p => p.1)).Nodup) :
    ∀ (n : Nat) (e : String) (c : Nat), (e, c) ∈ S →
      (e ∈ (S.take n).map (fun p => p.1) ↔ (S.filter (fun q => c < q.2)).length < n) := by
  induction S with
  | nil =>
    intro n e c hmem
    simp at hmem
  | cons p S' ih =>
    intro n e c hmem
    have hhead : ∀ q ∈ S', q.2 < p.2 := fun q hq => List.rel_of_pairwise_cons hsorted hq
    have htail : S'.Pairwise (fun a b => b.2 < a.2) := hsorted.of_cons
    have hkhead : p.1 ∉ S'.map (fun q => q.1) := by
      have : (p.1 :: S'.map (fun q => q.1)).Nodup := hkeys
      exact (List.nodup_cons.mp this).1
    have hktail : (S'.map (fun q => q.1)).Nodup := by
      have : (p.1 :: S'.map (fun q => q.1)).Nodup := hkeys
      exact (List.nodup_cons.mp this).2
    rcases List.mem_cons.mp hmem with heq | hmem'
    · -- the entry is the head
      have hpc : p.2 = c := by rw [← heq]
      have hfe : S'.filter (fun q => c < q.2) = [] := by
        rw [List.filter_eq_nil_iff]
        intro q hq
        have := hhead q hq
        simp only [decide_eq_true_eq]
        omega
      have hfilter : ((p :: S').filter (fun q => c < q.2)).length = 0 := by
        have hnp : ¬ (c < p.2) := by omega
        simp [List.filter_cons, hnp, hfe]
      cases n with
      | zero => simp [hfilter]
      | succ n' =>
        rw [hfilter]
        simp only [List.take_succ_cons, List.map_cons, List.mem_cons]
        constructor
        · intro _
          omega
        · intro _
          left
          rw [← heq]
    · -- the entry is in the tail
      have hc : c < p.2 := hhead (e, c) hmem'
      have hne : e ≠ p.1 := by
        intro h
        exact hkhead (h ▸ List.mem_map.mpr ⟨(e, c), hmem', rfl⟩)
      have hfilter : ((p :: S').filter (fun q => c < q.2)).length =
          (S'.filter (fun q => c < q.2)).length + 1 := by
        simp [List.filter_cons, hc]
      cases n with
      | zero => simp [hfilter]
      | succ n' =>
        rw [hfilter]
        simp only [List.take_succ_cons, List.map_cons, List.mem_cons]
        rw [ih htail hktail n' e c hmem']
        constructor
        · intro h
          rcases h with h | h
          · exact absurd h hne
          · omega
        · intro h
          right
          omega

/-- C3: counting, top-200 cap, and link scoping of the flat-graph view.
Each record counts once toward its actor and once toward its target; the node
list has exactly min(200, number of distinct entities) entries; every dropped
entity's count is at most every kept entity's count; links run only between
kept entities (so an entity outside the top set — e.g. the 201st — never
appears, its links are omitted, not rerouted) and never loop; there is at most
one link per unordered entity pair; and when connection counts are pairwise
distinct (as in the 250-strictly-decreasing scenario) an entity is kept exactly
when fewer than 200 entities have a strictly higher count — the node list is
exactly the set of highest-count entities. -/
theorem graphData_top200 (rels : List Rel) :
    (∀ e c, (e, c) ∈ (graphData rels).nodes → c = countOccurrences rels e)
    ∧ (graphData rels).nodes.length = min 200 (connectionCountOf rels).length
    ∧ (∀ p ∈ (graphData rels).nodes, ∀ e c, alook (connectionCountOf rels) e = some c →
        e ∉ (graphData rels).nodes.map (fun q => q.1) → c ≤ p.2)
    ∧ (∀ l ∈ (graphData rels).links,
        l.1 ∈ (graphData rels).nodes.map (fun q => q.1) ∧
        l.2 ∈ (graphData rels).nodes.map (fun q => q.1) ∧ l.1 ≠ l.2)
    ∧ List.Pairwise (fun l l' : String × String =>
        ¬ ((l'.1 = l.1 ∧ l'.2 = l.2) ∨ (l'.1 = l.2 ∧ l'.2 = l.1))) (graphData rels).links
    ∧ (((connectionCountOf rels).map (fun p => p.2)).Nodup →
        ∀ e c, alook (connectionCountOf rels) e = some c →
          (e ∈ (graphData rels).nodes.map (fun q => q.1) ↔
            ((connectionCountOf rels).filter (fun q => c < q.2)).length < 200)) := by
  obtain ⟨ccVal, ccPos, ccNodup⟩ := connectionCount_spec rels
  have hperm : (stableSort (fun a b : String × Nat => b.2 ≤ a.2)
      (connectionCountOf rels)).Perm (connectionCountOf rels) := stableSort_perm _ _
  have htrans : ∀ a b c : String × Nat,
      (fun a b : String × Nat => (b.2 ≤ a.2 : Bool)) a b = true →
      (fun a b : String × Nat => (b.2 ≤ a.2 : Bool)) b c = true →
      (fun a b : String × Nat => (b.2 ≤ a.2 : Bool)) a c = true := by
    intro a b c h1 h2
    simp only [decide_eq_true_eq] at h1 h2 ⊢
    omega
  have htotal : ∀ a b : String × Nat,
      ((fun a b : String × Nat => (b.2 ≤ a.2 : Bool)) a b ||
       (fun a b : String × Nat => (b.2 ≤ a.2 : Bool)) b a) = true := by
    intro a b
    simp only [Bool.or_eq_true, decide_eq_true_eq]
    omega
  have hsorted : (stableSort (fun a b : String × Nat => b.2 ≤ a.2)
      (connectionCountOf rels)).Pairwise (fun a b => b.2 ≤ a.2) := by
    refine (stableSort_sorted _ ?_ ?_ (connectionCountOf rels)).imp
      (fun h => of_decide_eq_true h)
    · exact htrans
    · intro a b
      have := htotal a b
      rcases Bool.or_eq_true_iff.mp this with h | h
      · exact Or.inl h
      · exact Or.inr h
  have hSkeys : ((stableSort (fun a b : String × Nat => b.2 ≤ a.2)
      (connectionCountOf rels)).map (fun p => p.1)).Nodup :=
    ((hperm.map (fun p => p.1)).nodup_iff).mpr (by simpa [akeys] using ccNodup)
  have hnodes : (graphData rels).nodes =
      (stableSort (fun a b : String × Nat => b.2 ≤ a.2) (connectionCountOf rels)).take 200 :=
    rfl
  have hfold := linkFold_spec ((topEntities rels).map (fun p => p.1)) rels ([], [])
    (by intro l hl; simp at hl) (by simp) (by intro l hl; simp at hl)
  refine ⟨?_, ?_, ?_, ?_, ?_, ?_⟩
  · intro e c hmem
    rw [hnodes] at hmem
    have hS := List.mem_of_mem_take hmem
    have hM := hperm.mem_iff.mp hS
    have := alook_of_mem_nodup _ ccNodup e c hM
    have hval := ccVal e
    rw [this] at hval
    simpa using hval
  · rw [hnodes, List.length_take, hperm.length_eq]
  · intro p hp e c halook hnot
    have hM := alook_mem _ _ _ halook
    have hS := hperm.mem_iff.mpr hM
    rw [← List.take_append_drop 200 (stableSort (fun a b : String × Nat => b.2 ≤ a.2)
      (connectionCountOf rels))] at hS
    rcases List.mem_append.mp hS with hin | hin
    · exfalso
      apply hnot
      rw [hnodes]
      exact List.mem_map.mpr ⟨(e, c), hin, rfl⟩
    · have hcross := hsorted
      rw [← List.take_append_drop 200 (stableSort (fun a b : String × Nat => b.2 ≤ a.2)
        (connectionCountOf rels))] at hcross
      have := (List.pairwise_append.mp hcross).2.2 p (by rw [hnodes] at hp; exact hp)
        (e, c) hin
      exact this
  · exact hfold.1
  · have hpw : (graphData rels).links.Pairwise
        (fun l l' => sortedPairKey l.1 l.2 ≠ sortedPairKey l'.1 l'.2) :=
      List.pairwise_map.mp hfold.2
    refine hpw.imp ?_
    intro l l' h hc
    apply h
    rcases hc with ⟨h1, h2⟩ | ⟨h1, h2⟩
    · rw [h1, h2]
    · rw [h1, h2, sortedPairKey_comm]
  · intro hinj e c halook
    have hM := alook_mem _ _ _ halook
    have hS := hperm.mem_iff.mpr hM
    have hstrict := strict_sorted_of_distinct_counts _ hsorted
      (((hperm.map (fun p => p.2)).nodup_iff).mpr hinj)
    have hrank := take_mem_iff_rank _ hstrict hSkeys 200 e c hS
    rw [hnodes]
    rw [hrank, (hperm.filter (fun q => c < q.2)).length_eq]

/-- A small concrete record set shared by several witnesses: entity A occurs
three times, B twice, C once — pairwise distinct connection counts. -/
def demoRels : List Rel := [
  ⟨1, "A", "met", "B", none, none, "d", [], none⟩,
  ⟨2, "A", "met", "B", none, none, "d", [], none⟩,
  ⟨3, "A", "met", "C", none, none, "d", [], none⟩]

/-- Witness for C3: at the concrete input `demoRels` every hypothesis of the
rank characterization is discharged by computation. -/
theorem graphData_top200_witness :
    ((connectionCountOf demoRels).map (fun p => p.2)).Nodup ∧
    alook (connectionCountOf demoRels) "A" = some 3 ∧
    ("A" ∈ (graphData demoRels).nodes.map (fun q => q.1) ↔
      ((connectionCountOf demoRels).filter (fun q => 3 < q.2)).length < 200) :=
  ⟨by decide, by decide,
   (graphData_top200 demoRels).2.2.2.2.2 (by decide) "A" 3 (by decide)⟩

/-- A record whose actor is the zero-length string. -/
def emptyActorRel : Rel := ⟨10, "", "met", "B", none, none, "d", [], none⟩

/-- Counterexample to C6: a record with a zero-length actor string is not
dropped by the aggregation — the empty string is counted like any entity name
and appears as a node of the flat graph with count 1, and the record still
lands in a location bucket (here the synthetic one). -/
theorem emptyActor_not_dropped :
    ("", 1) ∈ (graphData [emptyActorRel]).nodes ∧
    (allLocationBuckets [emptyActorRel]).map (fun b => b.events.length) = [1] := by
  decide

/-- C6 amended: records with zero-length actor or target strings are NOT
dropped: the aggregation is total on them, the empty string is counted as an
entity name (its connection count is positive), and the record is counted in
the location buckets exactly like any other record. -/
theorem emptyNames_aggregated (rels : List Rel) (r : Rel) (hr : r ∈ rels)
    (ha : r.actor = "" ∨ r.target = "") :
    0 < (alook (connectionCountOf rels) "").getD 0 ∧
    ((allLocationBuckets rels).map (fun b => b.events.count r)).sum = rels.count r := by
  constructor
  · have hval := (connectionCount_spec rels).1 ""
    rw [hval]
    unfold countOccurrences
    rcases ha with ha | ha
    · have hmem : r ∈ rels.filter (fun x => x.actor == "") :=
        List.mem_filter.mpr ⟨hr, by simp [ha]⟩
      have hlen := List.length_pos_of_mem hmem
      omega
    · have hmem : r ∈ rels.filter (fun x => x.target == "") :=
        List.mem_filter.mpr ⟨hr, by simp [ha]⟩
      have hlen := List.length_pos_of_mem hmem
      omega
  · exact allBuckets_count_sum rels r

/-- Witness for the amended C6 at a concrete input. -/
theorem emptyNames_aggregated_witness :
    emptyActorRel ∈ [emptyActorRel] ∧ (emptyActorRel.actor = "" ∨ emptyActorRel.target = "") ∧
    (0 < (alook (connectionCountOf [emptyActorRel]) "").getD 0 ∧
     ((allLocationBuckets [emptyActorRel]).map (fun b => b.events.count emptyActorRel)).sum =
       [emptyActorRel].count emptyActorRel) :=
  ⟨by decide, by decide,
   emptyNames_aggregated [emptyActorRel] emptyActorRel (by decide) (by decide)⟩

/-! ## spatial-adapter: importance and link-strength metrics -/

/-- `calculateImportance`: logarithmic scaling of a connection count, with the
fixed midpoint fallback whenever `maxConnections <= 1`; `Math.log` is the real
natural logarithm. -/
noncomputable def calculateImportance (connectionCount maxConnections : ℝ) : ℝ :=
  if maxConnections ≤ 1 then 0.5
  else Real.log (connectionCount + 1) / Real.log (maxConnections + 1)

/-- Counterexample to C4: `calculateImportance(5, 1)` takes the midpoint
fallback (because `maxCount = 1` satisfies `maxCount <= 1`), and the midpoint
0.5 differs from the log ratio log 6 / log 2 the claim demands there. -/
theorem calculateImportance_five_one :
    calculateImportance 5 1 = 0.5 ∧
    calculateImportance 5 1 ≠ Real.log (5 + 1) / Real.log (1 + 1) := by
  have h05 : calculateImportance 5 1 = 0.5 := by
    unfold calculateImportance
    rw [if_pos le_rfl]
  refine ⟨h05, ?_⟩
  rw [h05]
  have h2 : (0:ℝ) < Real.log 2 := Real.log_pos (by norm_num)
  have h6 : Real.log 2 < Real.log 6 := Real.log_lt_log (by norm_num) (by norm_num)
  have hgt : 1 < Real.log (5 + 1) / Real.log (1 + 1) := by
    have : (5:ℝ) + 1 = 6 := by norm_num
    rw [this]
    have h21 : (1:ℝ) + 1 = 2 := by norm_num
    rw [h21]
    exact (one_lt_div h2).mpr h6
  intro hc
  rw [← hc] at hgt
  norm_num at hgt

/-- C4 amended: `calculateImportance` equals the log ratio
`log(count+1)/log(maxCount+1)` whenever `maxCount > 1` and the fixed midpoint
0.5 whenever `maxCount <= 1` (so `calculateImportance(5,1)` is 0.5, not the
log ratio); for `0 <= count <= maxCount` the result always lies in [0, 1];
`calculateImportance(0, 100) = 0` exactly (not negative) and
`calculateImportance(100, 100) = 1`. -/
theorem calculateImportance_spec (count maxCount : ℝ)
    (h0 : 0 ≤ count) (h1 : count ≤ maxCount) :
    (maxCount ≤ 1 → calculateImportance count maxCount = 0.5)
    ∧ (1 < maxCount → calculateImportance count maxCount =
        Real.log (count + 1) / Real.log (maxCount + 1))
    ∧ 0 ≤ calculateImportance count maxCount
    ∧ calculateImportance count maxCount ≤ 1
    ∧ calculateImportance 0 100 = 0
    ∧ calculateImportance 100 100 = 1
    ∧ calculateImportance 5 1 = 0.5 := by
  have hlow : calculateImportance 0 100 = 0 := by
    unfold calculateImportance
    rw [if_neg (by norm_num)]
    simp
  have hhigh : calculateImportance 100 100 = 1 := by
    unfold calculateImportance
    rw [if_neg (by norm_num)]
    have hpos : (0:ℝ) < Real.log (100 + 1) := Real.log_pos (by norm_num)
    exact div_self (ne_of_gt hpos)
  have hfb : calculateImportance 5 1 = 0.5 := by
    unfold calculateImportance
    rw [if_pos le_rfl]
  refine ⟨?_, ?_, ?_, ?_, hlow, hhigh, hfb⟩
  · intro h
    unfold calculateImportance
    rw [if_pos h]
  · intro h
    unfold calculateImportance
    rw [if_neg (not_le.mpr h)]
  · unfold calculateImportance
    by_cases h : maxCount ≤ 1
    · rw [if_pos h]
      norm_num
    · rw [if_neg h]
      push_neg at h
      have hnum : 0 ≤ Real.log (count + 1) := Real.log_nonneg (by linarith)
      have hden : 0 < Real.log (maxCount + 1) := Real.log_pos (by linarith)
      exact div_nonneg hnum hden.le
  · unfold calculateImportance
    by_cases h : maxCount ≤ 1
    · rw [if_pos h]
      norm_num
    · rw [if_neg h]
      push_neg at h
      have hden : 0 < Real.log (maxCount + 1) := Real.log_pos (by linarith)
      rw [div_le_one hden]
      exact Real.log_le_log (by linarith) (by linarith)

/-- Witness for the amended C4 at the concrete input (2, 3). -/
theorem calculateImportance_spec_witness :
    (0:ℝ) ≤ 2 ∧ (2:ℝ) ≤ 3 ∧
    (((3:ℝ) ≤ 1 → calculateImportance 2 3 = 0.5)
    ∧ ((1:ℝ) < 3 → calculateImportance 2 3 = Real.log (2 + 1) / Real.log (3 + 1))
    ∧ 0 ≤ calculateImportance 2 3
    ∧ calculateImportance 2 3 ≤ 1
    ∧ calculateImportance 0 100 = 0
    ∧ calculateImportance 100 100 = 1
    ∧ calculateImportance 5 1 = 0.5) :=
  ⟨by norm_num, by norm_num, calculateImportance_spec 2 3 (by norm_num) (by norm_num)⟩

/-- `calculateLinkStrength`: linear ratio capped at 1, midpoint fallback when
`maxCount <= 1` (link counts are integers, so the arithmetic is exact in ℚ). -/
def calculateLinkStrength (count maxCount : ℚ) : ℚ :=
  if maxCount ≤ 1 then 0.5 else min 1 (count / maxCount)

/-- The ordered key `source + '|||' + target` used by the spatial adapter. -/
def orderedLinkKey (l : String × String) : String := l.1 ++ "|||" ++ l.2

/-- The adapter's `linkCounts` map: occurrences of identical ordered keys
within the link list it receives (which callers pass already deduplicated). -/
def linkCounts (links : List (String × String)) : List (String × Nat) :=
  links.foldl (fun m l => bumpCount m (orderedLinkKey l)) []

/-- `Math.max(...linkCounts.values(), 1)`. -/
def maxLinkCount (links : List (String × String)) : Nat :=
  ((linkCounts links).map (fun p => p.2)).foldl max 1

/-- The strength `adaptToSpatialGraph` assigns to one link of its list:
`calculateLinkStrength(linkCounts.get(key) || 1, maxLinkCount)`. -/
def spatialLinkStrength (links : List (String × String)) (l : String × String) : ℚ :=
  calculateLinkStrength ((alook (linkCounts links) (orderedLinkKey l)).getD 1 : ℕ)
    (maxLinkCount links : ℕ)

theorem linkCounts_getD (links : List (String × String)) (k : String) :
    (alook (linkCounts links) k).getD 0 =
      (links.filter (fun l => orderedLinkKey l == k)).length := by
  induction links using List.reverseRecOn with
  | nil => simp [linkCounts, alook]
  | append_singleton links l ih =>
    have hstep : linkCounts (links ++ [l]) = bumpCount (linkCounts links) (orderedLinkKey l) := by
      simp [linkCounts]
    rw [hstep, bumpCount_getD, ih, List.filter_append]
    by_cases h : orderedLinkKey l = k <;> simp [h]

theorem alook_getD_one_eq (m : List (String × Nat)) (k : String)
    (hpos : 0 < (alook m k).getD 0) : (alook m k).getD 1 = (alook m k).getD 0 := by
  cases h : alook m k with
  | none => rw [h] at hpos; simp at hpos
  | some v => rfl

theorem foldl_max_of_le (acc : Nat) : ∀ vals : List Nat, (∀ v ∈ vals, v ≤ acc) →
    vals.foldl max acc = acc := by
  intro vals
  induction vals generalizing acc with
  | nil => intro _; rfl
  | cons v vs ih =>
    intro h
    rw [List.foldl_cons]
    have hv : v ≤ acc := h v (List.mem_cons_self _ _)
    rw [max_eq_left hv]
    exact ih acc (fun w hw => h w (List.mem_cons_of_mem _ hw))

theorem linkCounts_keys_nodup (links : List (String × String)) :
    (akeys (linkCounts links)).Nodup := by
  induction links using List.reverseRecOn with
  | nil => simp [linkCounts, akeys]
  | append_singleton links l ih =>
    have hstep : linkCounts (links ++ [l]) =
        bumpCount (linkCounts links) (orderedLinkKey l) := by
      simp [linkCounts]
    rw [hstep, bumpCount_keys]
    by_cases h : orderedLinkKey l ∈ akeys (linkCounts links)
    · rw [if_pos h]
      exact ih
    · rw [if_neg h]
      simp [List.nodup_append, ih, h]

theorem linkCounts_pos (links : List (String × String)) :
    ∀ k c, alook (linkCounts links) k = some c → 0 < c := by
  induction links using List.reverseRecOn with
  | nil =>
    intro k c h
    simp [linkCounts, alook] at h
  | append_singleton links l ih =>
    intro k c h
    have hstep : linkCounts (links ++ [l]) =
        bumpCount (linkCounts links) (orderedLinkKey l) := by
      simp [linkCounts]
    rw [hstep] at h
    unfold bumpCount at h
    rw [alook_aset] at h
    by_cases hk : k = orderedLinkKey l
    · rw [if_pos hk] at h
      simp at h
      omega
    · rw [if_neg hk] at h
      exact ih k c h

theorem linkCounts_values (links : List (String × String)) :
    ∀ v ∈ (linkCounts links).map (fun p => p.2), ∃ k,
      v = (links.filter (fun l => orderedLinkKey l == k)).length ∧ 0 < v := by
  intro v hv
  obtain ⟨p, hp, hpv⟩ := List.mem_map.mp hv
  have halook := alook_of_mem_nodup _ (linkCounts_keys_nodup links) p.1 p.2 hp
  have hfilter := linkCounts_getD links p.1
  rw [halook] at hfilter
  simp only [Option.getD_some] at hfilter
  exact ⟨p.1, hpv ▸ hfilter, hpv ▸ linkCounts_pos links p.1 p.2 halook⟩

/-- Two records collapsing onto the same unordered pair (multiplicity N = 2). -/
def dupRels : List Rel := [
  ⟨1, "A", "met", "B", none, none, "d", [], none⟩,
  ⟨2, "A", "met", "B", none, none, "d", [], none⟩]

/-- Counterexample to C5: the pair (A, B) occurs N = 2 times in `dupRels`; the
derived link list holds exactly one entry for it, but that entry's multiplicity
as recorded by the spatial adapter is 1 (the adapter recounts ordered keys in
the already-deduplicated list), and the strength is the 0.5 fallback of
`calculateLinkStrength(1, 1)` — not min(1, N/maxCount) = min(1, 2/2) = 1. -/
theorem linkStrength_counterexample :
    (graphData dupRels).links = [("A", "B")] ∧
    (alook (linkCounts (graphData dupRels).links) (orderedLinkKey ("A", "B"))).getD 1 = 1 ∧
    spatialLinkStrength (graphData dupRels).links ("A", "B") = 0.5 ∧
    (0.5 : ℚ) ≠ min 1 ((2 : ℚ) / 2) := by
  have hlinks : (graphData dupRels).links = [("A", "B")] := by decide
  have hcount : (alook (linkCounts [(("A" : String), ("B" : String))])
      (orderedLinkKey ("A", "B"))).getD 1 = 1 := by decide
  have hmax : maxLinkCount [(("A" : String), ("B" : String))] = 1 := by decide
  refine ⟨hlinks, by rw [hlinks]; exact hcount, ?_, by norm_num⟩
  rw [hlinks]
  unfold spatialLinkStrength
  rw [hcount, hmax]
  norm_num [calculateLinkStrength]

/-- C5 amended: the derived link list contains exactly one entry per unordered
pair, but the entry does not carry the pair's multiplicity N from the
relationship list: the spatial adapter recounts ordered keys inside the
already-deduplicated link list it receives, so when the ordered keys are
pairwise distinct every recorded multiplicity is 1, maxCount is 1, and every
strength is the fixed 0.5 fallback of `calculateLinkStrength`;
min(1, count/maxCount) is used only when maxCount > 1. -/
theorem linkDedup_strength (rels : List Rel) :
    List.Pairwise (fun l l' : String × String =>
      ¬ ((l'.1 = l.1 ∧ l'.2 = l.2) ∨ (l'.1 = l.2 ∧ l'.2 = l.1))) (graphData rels).links
    ∧ (∀ links : List (String × String), (links.map orderedLinkKey).Nodup →
        maxLinkCount links = 1 ∧
        ∀ l ∈ links,
          (alook (linkCounts links) (orderedLinkKey l)).getD 1 = 1 ∧
          spatialLinkStrength links l = 0.5)
    ∧ (∀ count maxCount : ℚ, 1 < maxCount →
        calculateLinkStrength count maxCount = min 1 (count / maxCount)) := by
  refine ⟨?_, ?_, ?_⟩
  · have hfold := linkFold_spec ((topEntities rels).map (fun p => p.1)) rels ([], [])
      (by intro l hl; simp at hl) (by simp) (by intro l hl; simp at hl)
    have hpw : (graphData rels).links.Pairwise
        (fun l l' => sortedPairKey l.1 l.2 ≠ sortedPairKey l'.1 l'.2) :=
      List.pairwise_map.mp hfold.2
    refine hpw.imp ?_
    intro l l' h hc
    apply h
    rcases hc with ⟨h1, h2⟩ | ⟨h1, h2⟩
    · rw [h1, h2]
    · rw [h1, h2, sortedPairKey_comm]
  · intro links hnd
    have hkeylen : ∀ k, (links.filter (fun l => orderedLinkKey l == k)).length ≤ 1 := by
      intro k
      have hcount : (links.map orderedLinkKey).count k ≤ 1 :=
        List.nodup_iff_count_le_one.mp hnd k
      have : (links.map orderedLinkKey).count k =
          (links.filter (fun l => orderedLinkKey l == k)).length := by
        rw [List.count_eq_countP, List.countP_map, List.countP_eq_length_filter]
        rfl
      omega
    have hmax : maxLinkCount links = 1 := by
      unfold maxLinkCount
      apply foldl_max_of_le
      intro v hv
      obtain ⟨k, hk, _⟩ := linkCounts_values links v hv
      rw [hk]
      exact hkeylen k
    refine ⟨hmax, ?_⟩
    intro l hl
    have hmem : l ∈ links.filter (fun x => orderedLinkKey x == orderedLinkKey l) :=
      List.mem_filter.mpr ⟨hl, by simp⟩
    have hge : 1 ≤ (links.filter (fun x => orderedLinkKey x == orderedLinkKey l)).length :=
      List.length_pos_of_mem hmem
    have hle := hkeylen (orderedLinkKey l)
    have hone : (links.filter (fun x => orderedLinkKey x == orderedLinkKey l)).length = 1 := by
      omega
    have hgetD0 : (alook (linkCounts links) (orderedLinkKey l)).getD 0 = 1 := by
      rw [linkCounts_getD, hone]
    have hgetD1 : (alook (linkCounts links) (orderedLinkKey l)).getD 1 = 1 := by
      rw [alook_getD_one_eq _ _ (by omega), hgetD0]
    refine ⟨hgetD1, ?_⟩
    unfold spatialLinkStrength
    rw [hgetD1, hmax]
    norm_num [calculateLinkStrength]
  · intro count maxCount h
    unfold calculateLinkStrength
    rw [if_neg (not_le.mpr h)]

/-- Witness for the amended C5 at a concrete deduplicated link list. -/
theorem linkDedup_strength_witness :
    (([(("A" : String), ("B" : String))].map orderedLinkKey).Nodup ∧
     (maxLinkCount [(("A" : String), ("B" : String))] = 1 ∧
      ∀ l ∈ [(("A" : String), ("B" : String))],
        (alook (linkCounts [(("A" : String), ("B" : String))]) (orderedLinkKey l)).getD 1 = 1 ∧
        spatialLinkStrength [(("A" : String), ("B" : String))] l = 0.5)) ∧
    ((1 : ℚ) < 2 ∧ calculateLinkStrength 3 2 = min 1 (3 / 2)) :=
  ⟨⟨by decide, (linkDedup_strength dupRels).2.1 [("A", "B")] (by decide)⟩,
   by norm_num, (linkDedup_strength dupRels).2.2 3 2 (by norm_num)⟩

/-! ## calculateHopDistances: BFS from the principal -/

theorem aset_append_of_none (m : List (κ × β)) (k : κ) (v : β)
    (h : alook m k = none) : aset m k v = m ++ [(k, v)] := by
  induction m with
  | nil => rfl
  | cons p r ih =>
    obtain ⟨k', v'⟩ := p
    by_cases hp : k' = k
    · simp [alook, hp] at h
    · simp only [alook, if_neg hp] at h
      simp [aset, hp, ih h]

/-- `adjacency.get(k)?.add(v)`: append `v` to the neighbor set of `k` when the
key `k` exists; a no-op otherwise. -/
def addNeighbor (adj : List (String × List String)) (k v : String) :
    List (String × List String) :=
  aupd adj k (fun ns => sadd ns v)

/-- Build the adjacency map: one entry per node id with an empty neighbor set,
then for every link each endpoint is added to the other endpoint's set — but
only when that other endpoint is itself a node. -/
def buildAdjacency (nodes : List String) (links : List (String × String)) :
    List (String × List String) :=
  links.foldl (fun adj l => addNeighbor (addNeighbor adj l.1 l.2) l.2 l.1)
    (nodes.map (fun n => (n, [])))

/-- One neighbor visit of the BFS:
`if (!distances.has(n)) { distances.set(n, d+1); queue.push(n) }`. -/
def bfsVisit (du : Nat) (dq : List (String × Nat) × List String) (n : String) :
    List (String × Nat) × List String :=
  if (alook dq.1 n).isSome then dq else (aset dq.1 n (du + 1), dq.2 ++ [n])

/-- The `while (queue.length > 0)` loop.  The fuel argument is not part of the
source (whose loop terminates because every queued node was freshly added to
`distances`); `calculateHopDistances` passes enough fuel for the loop to run
to completion, which the correctness proof establishes. -/
def bfsLoop (adj : List (String × List String)) :
    Nat → List String → List (String × Nat) → List (String × Nat)
  | 0, _, d => d
  | _ + 1, [], d => d
  | fuel + 1, u :: q, d =>
    let du := (alook d u).getD 0
    let dq := ((alook adj u).getD []).foldl (bfsVisit du) (d, q)
    bfsLoop adj fuel dq.2 dq.1

/-- An upper bound on the number of distinct strings the BFS can ever touch. -/
def adjSize (adj : List (String × List String)) : Nat :=
  adj.length + (adj.map (fun p => p.2)).flatten.length

def calculateHopDistances (nodes : List String) (links : List (String × String))
    (centerNode : String) : List (String × Nat) :=
  let adj := buildAdjacency nodes links
  if (alook adj centerNode).isSome then
    bfsLoop adj (2 * adjSize adj + 1) [centerNode] [(centerNode, 0)]
  else []

/-- The undirected edge relation induced by the link list. -/
def Edge (links : List (String × String)) (u v : String) : Prop :=
  (u, v) ∈ links ∨ (v, u) ∈ links

instance (links : List (String × String)) (u v : String) : Decidable (Edge links u v) := by
  unfold Edge
  infer_instance

/-- Every endpoint name occurring in the link list. -/
def linkEnds (links : List (String × String)) : List String :=
  links.map (fun l => l.1) ++ links.map (fun l => l.2)

/-- Reachability from the principal in at most n steps, in the undirected
graph induced by the links. -/
def ReachIn (links : List (String × String)) (center : String) : Nat → String → Prop
  | 0, v => v = center
  | n + 1, v => ReachIn links center n v ∨
      ∃ u ∈ linkEnds links, ReachIn links center n u ∧ Edge links u v

def decReachIn (links : List (String × String)) (center : String) :
    (n : Nat) → (v : String) → Decidable (ReachIn links center n v)
  | 0, v => decidable_of_iff (v = center) Iff.rfl
  | n + 1, v =>
    haveI : DecidablePred (ReachIn links center n) := decReachIn links center n
    decidable_of_iff (ReachIn links center n v ∨
      ∃ u ∈ linkEnds links, ReachIn links center n u ∧ Edge links u v) Iff.rfl

instance (links : List (String × String)) (center : String) (n : Nat) (v : String) :
    Decidable (ReachIn links center n v) := decReachIn links center n v

theorem reachIn_mono (links : List (String × String)) (center : String) :
    ∀ {m n : Nat}, m ≤ n → ∀ {v}, ReachIn links center m v → ReachIn links center n v := by
  intro m n hmn
  induction n with
  | zero =>
    intro v h
    have : m = 0 := Nat.le_zero.mp hmn
    subst this
    exact h
  | succ n ih =>
    intro v h
    rcases Nat.le_succ_iff.mp hmn with h' | h'
    · exact Or.inl (ih h' h)
    · subst h'
      exact h

/-- The entity is at exact shortest-path distance n from the principal. -/
def IsDist (links : List (String × String)) (center v : String) (n : Nat) : Prop :=
  ReachIn links center n v ∧ ∀ m < n, ¬ ReachIn links center m v

instance (links : List (String × String)) (center v : String) (n : Nat) :
    Decidable (IsDist links center v n) := by
  unfold IsDist
  infer_instance

theorem isDist_unique (links : List (String × String)) (center v : String)
    {m n : Nat} (hm : IsDist links center v m) (hn : IsDist links center v n) : m = n := by
  rcases Nat.lt_trichotomy m n with h | h | h
  · exact absurd hm.1 (hn.2 m h)
  · exact h
  · exact absurd hn.1 (hm.2 n h)

theorem isDist_of_reach (links : List (String × String)) (center v : String)
    (n : Nat) (h : ReachIn links center n v) : ∃ m, IsDist links center v m := by
  have hex : ∃ m, ReachIn links center m v := ⟨n, h⟩
  exact ⟨Nat.find hex, Nat.find_spec hex, fun k hk => Nat.find_min hex hk⟩

/-- The list of fresh (not yet visited) neighbors, in visit order. -/
def freshList (ks : List String) : List String → List String
  | [] => []
  | n :: ns => if n ∈ ks then freshList ks ns else n :: freshList (ks ++ [n]) ns

theorem freshList_congr : ∀ (ns ks ks' : List String), (∀ x, x ∈ ks ↔ x ∈ ks') →
    freshList ks ns = freshList ks' ns := by
  intro ns
  induction ns with
  | nil => intro ks ks' _; rfl
  | cons n ns ih =>
    intro ks ks' h
    by_cases hn : n ∈ ks
    · rw [freshList, if_pos hn, freshList, if_pos ((h n).mp hn)]
      exact ih ks ks' h
    · rw [freshList, if_neg hn, freshList, if_neg (fun hc => hn ((h n).mpr hc))]
      congr 1
      apply ih
      intro x
      simp [h x]

theorem mem_freshList : ∀ (ns ks : List String) (x : String),
    x ∈ freshList ks ns ↔ x ∈ ns ∧ x ∉ ks := by
  intro ns
  induction ns with
  | nil => intro ks x; simp [freshList]
  | cons n ns ih =>
    intro ks x
    by_cases hn : n ∈ ks
    · rw [freshList, if_pos hn, ih]
      constructor
      · intro ⟨h1, h2⟩
        exact ⟨List.mem_cons_of_mem _ h1, h2⟩
      · rintro ⟨h1, h2⟩
        rcases List.mem_cons.mp h1 with rfl | h1
        · exact absurd hn h2
        · exact ⟨h1, h2⟩
    · rw [freshList, if_neg hn]
      constructor
      · intro h
        rcases List.mem_cons.mp h with rfl | h
        · exact ⟨List.mem_cons_self _ _, hn⟩
        · have := (ih (ks ++ [n]) x).mp h
          refine ⟨List.mem_cons_of_mem _ this.1, fun hc => this.2 (List.mem_append_left _ hc)⟩
      · rintro ⟨h1, h2⟩
        rcases List.mem_cons.mp h1 with rfl | h1
        · exact List.mem_cons_self _ _
        · by_cases hx : x = n
          · subst hx
            exact List.mem_cons_self _ _
          · refine List.mem_cons_of_mem _ ((ih (ks ++ [n]) x).mpr ⟨h1, ?_⟩)
            intro hc
            rcases List.mem_append.mp hc with hc | hc
            · exact h2 hc
            · simp at hc
              exact hx hc

theorem freshList_nodup : ∀ (ns ks : List String), (freshList ks ns).Nodup := by
  intro ns
  induction ns with
  | nil => intro ks; simp [freshList]
  | cons n ns ih =>
    intro ks
    by_cases hn : n ∈ ks
    · rw [freshList, if_pos hn]
      exact ih ks
    · rw [freshList, if_neg hn]
      refine List.nodup_cons.mpr ⟨?_, ih (ks ++ [n])⟩
      intro hc
      have := (mem_freshList ns (ks ++ [n]) n).mp hc
      exact this.2 (List.mem_append_right _ (List.mem_singleton.mpr rfl))

theorem bfsVisit_fold (du : Nat) : ∀ (ns : List String) (d : List (String × Nat))
    (q : List String), ns.foldl (bfsVisit du) (d, q) =
      (d ++ (freshList (akeys d) ns).map (fun n => (n, du + 1)),
       q ++ freshList (akeys d) ns) := by
  intro ns
  induction ns with
  | nil => intro d q; simp [freshList]
  | cons n ns ih =>
    intro d q
    rw [List.foldl_cons]
    by_cases hn : (alook d n).isSome = true
    · have hmem : n ∈ akeys d := (alook_isSome_iff_mem_keys d n).mp hn
      have hv : bfsVisit du (d, q) n = (d, q) := by
        simp [bfsVisit, hn]
      rw [hv, ih, freshList, if_pos hmem]
    · have hmem : n ∉ akeys d := fun hc =>
        hn ((alook_isSome_iff_mem_keys d n).mpr hc)
      have hnone : alook d n = none := by
        cases h : alook d n
        · rfl
        · exact absurd (by simp [h]) hn
      have hv : bfsVisit du (d, q) n = (d ++ [(n, du + 1)], q ++ [n]) := by
        simp [bfsVisit, hn, aset_append_of_none d n _ hnone]
      rw [hv, ih, freshList, if_neg hmem]
      have hkeys : akeys (d ++ [(n, du + 1)]) = akeys d ++ [n] := by
        simp [akeys]
      rw [hkeys]
      simp

theorem alook_addNeighbor (adj : List (String × List String)) (k v x : String) :
    alook (addNeighbor adj k v) x =
      if x = k then (alook adj k).map (fun ns => sadd ns v) else alook adj x := by
  unfold addNeighbor
  exact alook_aupd adj k _ x

theorem alook_initAdj (nodes : List String) (v : String) :
    alook (nodes.map (fun n => (n, ([] : List String)))) v =
      if v ∈ nodes then some [] else none := by
  induction nodes with
  | nil => simp [alook]
  | cons n ns ih =>
    by_cases h : n = v
    · subst h
      simp [alook]
    · have h' : ¬ (v = n) := fun hc => h hc.symm
      simp only [List.map_cons, alook, if_neg h, List.mem_cons, ih]
      by_cases hm : v ∈ ns <;> simp [hm, h']

theorem buildAdjacency_spec (nodes : List String) (links : List (String × String)) :
    (∀ v, (alook (buildAdjacency nodes links) v).isSome ↔ v ∈ nodes)
    ∧ (∀ v ns, alook (buildAdjacency nodes links) v = some ns →
        ∀ w, w ∈ ns ↔ Edge links v w) := by
  suffices h : ∀ (ls : List (String × String)) (L : List (String × String))
      (adj : List (String × List String)),
      (∀ v, (alook adj v).isSome ↔ v ∈ nodes) →
      (∀ v ns, alook adj v = some ns → ∀ w, w ∈ ns ↔ Edge L v w) →
      (∀ v, (alook (ls.foldl (fun adj l =>
          addNeighbor (addNeighbor adj l.1 l.2) l.2 l.1) adj) v).isSome ↔ v ∈ nodes)
      ∧ (∀ v ns, alook (ls.foldl (fun adj l =>
          addNeighbor (addNeighbor adj l.1 l.2) l.2 l.1) adj) v = some ns →
          ∀ w, w ∈ ns ↔ Edge (L ++ ls) v w) by
    have h0some : ∀ v, (alook (nodes.map (fun n => (n, ([] : List String)))) v).isSome ↔
        v ∈ nodes := by
      intro v
      rw [alook_initAdj]
      by_cases hm : v ∈ nodes <;> simp [hm]
    have h0mem : ∀ v ns, alook (nodes.map (fun n => (n, ([] : List String)))) v = some ns →
        ∀ w, w ∈ ns ↔ Edge ([] : List (String × String)) v w := by
      intro v ns hns w
      rw [alook_initAdj] at hns
      by_cases hm : v ∈ nodes
      · rw [if_pos hm] at hns
        simp at hns
        subst hns
        simp [Edge]
      · rw [if_neg hm] at hns
        exact Option.noConfusion hns
    have := h links [] (nodes.map (fun n => (n, ([] : List String)))) h0some h0mem
    simpa [buildAdjacency] using this
  intro ls
  induction ls with
  | nil =>
    intro L adj hsome hmem
    simpa using ⟨hsome, hmem⟩
  | cons l ls ih =>
    intro L adj hsome hmem
    obtain ⟨a, b⟩ := l
    rw [List.foldl_cons]
    have hstep_some : ∀ v, (alook (addNeighbor (addNeighbor adj a b) b a) v).isSome ↔
        v ∈ nodes := by
      intro v
      rw [← hsome v, alook_isSome_iff_mem_keys, alook_isSome_iff_mem_keys]
      unfold addNeighbor
      rw [akeys_aupd, akeys_aupd]
    have hstep_mem : ∀ v ns, alook (addNeighbor (addNeighbor adj a b) b a) v = some ns →
        ∀ w, w ∈ ns ↔ Edge (L ++ [(a, b)]) v w := by
      intro v ns hns w
      have hEdge : Edge (L ++ [(a, b)]) v w ↔
          (Edge L v w ∨ (v = a ∧ w = b) ∨ (w = a ∧ v = b)) := by
        unfold Edge
        simp only [List.mem_append, List.mem_singleton, Prod.mk.injEq]
        tauto
      rw [hEdge]
      by_cases hvb : v = b
      · subst hvb
        rw [alook_addNeighbor, if_pos rfl] at hns
        by_cases hva : v = a
        · subst hva
          rw [alook_addNeighbor, if_pos rfl] at hns
          cases hadj : alook adj v with
          | none =>
            rw [hadj] at hns
            simp at hns
          | some ns0 =>
            rw [hadj] at hns
            simp at hns
            subst hns
            have hold := hmem v ns0 hadj w
            rw [mem_sadd, mem_sadd, hold]
            tauto
        · rw [alook_addNeighbor, if_neg hva] at hns
          cases hadj : alook adj v with
          | none =>
            rw [hadj] at hns
            simp at hns
          | some ns0 =>
            rw [hadj] at hns
            simp at hns
            subst hns
            have hold := hmem v ns0 hadj w
            rw [mem_sadd, hold]
            constructor
            · rintro (h | h)
              · exact Or.inl h
              · exact Or.inr (Or.inr ⟨h, rfl⟩)
            · rintro (h | ⟨h1, h2⟩ | ⟨h1, h2⟩)
              · exact Or.inl h
              · exact absurd h1 hva
              · exact Or.inr h1
      · rw [alook_addNeighbor, if_neg hvb] at hns
        by_cases hva : v = a
        · subst hva
          rw [alook_addNeighbor, if_pos rfl] at hns
          cases hadj : alook adj v with
          | none =>
            rw [hadj] at hns
            simp at hns
          | some ns0 =>
            rw [hadj] at hns
            simp at hns
            subst hns
            have hold := hmem v ns0 hadj w
            rw [mem_sadd, hold]
            constructor
            · rintro (h | h)
              · exact Or.inl h
              · exact Or.inr (Or.inl ⟨rfl, h⟩)
            · rintro (h | ⟨h1, h2⟩ | ⟨h1, h2⟩)
              · exact Or.inl h
              · exact Or.inr h2
              · exact absurd h2 hvb
        · rw [alook_addNeighbor, if_neg hva] at hns
          have hold := hmem v ns hns w
          rw [hold]
          constructor
          · intro h
            exact Or.inl h
          · rintro (h | ⟨h1, h2⟩ | ⟨h1, h2⟩)
            · exact h
            · exact absurd h1 hva
            · exact absurd h2 hvb
    have := ih (L ++ [(a, b)]) _ hstep_some hstep_mem
    simpa using this


/-- Looking up in a constant-valued assoc list built from a key list. -/
theorem alook_mapConst (L : List String) (c : Nat) (v : String) :
    alook (L.map (fun n => (n, c))) v = if v ∈ L then some c else none := by
  induction L with
  | nil => simp [alook]
  | cons n ns ih =>
    by_cases h : n = v
    · subst h
      simp [alook]
    · have h' : ¬ (v = n) := fun hc => h hc.symm
      simp only [List.map_cons, alook, if_neg h, List.mem_cons, ih]
      by_cases hm : v ∈ ns <;> simp [hm, h']

theorem edge_mem_linkEnds (links : List (String × String)) (u w : String)
    (h : Edge links u w) : u ∈ linkEnds links ∧ w ∈ linkEnds links := by
  rcases h with h | h
  · exact ⟨List.mem_append_left _ (List.mem_map.mpr ⟨(u, w), h, rfl⟩),
      List.mem_append_right _ (List.mem_map.mpr ⟨(u, w), h, rfl⟩)⟩
  · exact ⟨List.mem_append_right _ (List.mem_map.mpr ⟨(w, u), h, rfl⟩),
      List.mem_append_left _ (List.mem_map.mpr ⟨(w, u), h, rfl⟩)⟩

theorem edge_mem_nodes (nodes : List String) (links : List (String × String))
    (hl : ∀ p ∈ links, p.1 ∈ nodes ∧ p.2 ∈ nodes) (u w : String)
    (h : Edge links u w) : u ∈ nodes ∧ w ∈ nodes := by
  rcases h with h | h
  · exact ⟨(hl _ h).1, (hl _ h).2⟩
  · exact ⟨(hl _ h).2, (hl _ h).1⟩

/-- A node at exact distance k cannot be reached in fewer than k steps, so any
m-step reachability bound dominates k. -/
theorem isDist_le_of_reach (links : List (String × String)) (center u : String)
    (k m : Nat) (hk : IsDist links center u k) (hm : ReachIn links center m u) :
    k ≤ m := by
  by_contra h
  exact hk.2 m (Nat.lt_of_not_le h) hm

theorem aupd_length (m : List (κ × β)) (k : κ) (f : β → β) :
    (aupd m k f).length = m.length := by
  induction m with
  | nil => rfl
  | cons p r ih =>
    obtain ⟨k', v'⟩ := p
    by_cases hp : k' = k <;> simp [aupd, hp, ih]

theorem buildAdjacency_length (nodes : List String) (links : List (String × String)) :
    (buildAdjacency nodes links).length = nodes.length := by
  unfold buildAdjacency
  suffices h : ∀ (ls : List (String × String)) (adj : List (String × List String)),
      (ls.foldl (fun adj l => addNeighbor (addNeighbor adj l.1 l.2) l.2 l.1) adj).length
        = adj.length by
    rw [h]
    simp
  intro ls
  induction ls with
  | nil => intro adj; rfl
  | cons l ls ih =>
    intro adj
    rw [List.foldl_cons, ih]
    unfold addNeighbor
    rw [aupd_length, aupd_length]

/-- The distance recorded for a node, with the source's `|| 0` default. -/
def valOf (d : List (String × Nat)) (u : String) : Nat := (alook d u).getD 0

/-- The loop invariant of the BFS in `calculateHopDistances`: the recorded
distances are exactly the shortest-path distances, the queue values are
non-decreasing and span at most two consecutive levels, and every visited node
no longer on the queue already has all its neighbors visited. -/
structure BFSInv (nodes : List String) (links : List (String × String))
    (center : String) (d : List (String × Nat)) (q : List String) : Prop where
  keys_nodup : (akeys d).Nodup
  q_nodup : q.Nodup
  q_sub : ∀ u ∈ q, u ∈ akeys d
  inNodes : ∀ v ∈ akeys d, v ∈ nodes
  center_mem : center ∈ akeys d
  correct : ∀ v n, alook d v = some n → IsDist links center v n
  sorted : (q.map (valOf d)).Pairwise (fun a b => a ≤ b)
  band : ∀ x ∈ q, ∀ y ∈ q, valOf d x ≤ valOf d y + 1
  closed : ∀ v ∈ akeys d, v ∉ q → ∀ w, Edge links v w → w ∈ akeys d

/-- Frontier bound: while the invariant holds, any node reachable in m steps
is either already visited or separated from the principal by a queued node
whose recorded distance is strictly below m. -/
theorem bfs_frontier (links : List (String × String))
    (center : String) (d : List (String × Nat)) (q : List String)
    (hc : center ∈ akeys d)
    (hcl : ∀ v ∈ akeys d, v ∉ q → ∀ w, Edge links v w → w ∈ akeys d)
    (hcor : ∀ v n, alook d v = some n → IsDist links center v n) :
    ∀ m w, ReachIn links center m w →
      w ∈ akeys d ∨ ∃ u ∈ q, ∃ k, alook d u = some k ∧ k < m := by
  intro m
  induction m with
  | zero =>
    intro w hw
    have : w = center := hw
    subst this
    exact Or.inl hc
  | succ m ih =>
    intro w hw
    rcases hw with hw | ⟨u, _, hu, he⟩
    · rcases ih w hw with h | ⟨u, hq, k, hk, hkm⟩
      · exact Or.inl h
      · exact Or.inr ⟨u, hq, k, hk, Nat.lt_succ_of_lt hkm⟩
    · rcases ih u hu with h | ⟨x, hq, k, hk, hkm⟩
      · by_cases huq : u ∈ q
        · have hus : (alook d u).isSome := (alook_isSome_iff_mem_keys d u).mpr h
          cases hdu : alook d u with
          | none => rw [hdu] at hus; simp at hus
          | some k =>
            have hkd : IsDist links center u k := hcor u k hdu
            have hkm : k ≤ m := isDist_le_of_reach links center u k m hkd hu
            exact Or.inr ⟨u, huq, k, hdu, Nat.lt_succ_of_le hkm⟩
        · exact Or.inl (hcl u h huq w he)
      · exact Or.inr ⟨x, hq, k, hk, Nat.lt_succ_of_lt hkm⟩

theorem pairwise_le_const (c : Nat) (L : List String) :
    (L.map (fun _ => c)).Pairwise (fun a b => a ≤ b) := by
  induction L with
  | nil => simp
  | cons x xs ih =>
    rw [List.map_cons, List.pairwise_cons]
    refine ⟨?_, ih⟩
    intro b hb
    rcases List.mem_map.mp hb with ⟨y, _, rfl⟩
    exact Nat.le_refl c

/-- One iteration of the BFS loop preserves the invariant: the popped node's
fresh neighbors are recorded at distance one above it and appended to the
queue. -/
theorem bfs_step (nodes : List String) (links : List (String × String))
    (center : String)
    (hl : ∀ p ∈ links, p.1 ∈ nodes ∧ p.2 ∈ nodes)
    (d : List (String × Nat)) (u : String) (q : List String)
    (ns : List String) (hns : ∀ w, w ∈ ns ↔ Edge links u w)
    (hinv : BFSInv nodes links center d (u :: q)) :
    BFSInv nodes links center
      (d ++ (freshList (akeys d) ns).map (fun n => (n, valOf d u + 1)))
      (q ++ freshList (akeys d) ns) := by
  have hu_keys : u ∈ akeys d := hinv.q_sub u (List.mem_cons_self _ _)
  obtain ⟨du0, hdu⟩ :=
    Option.isSome_iff_exists.mp ((alook_isSome_iff_mem_keys d u).mpr hu_keys)
  have hval_u : valOf d u = du0 := by simp [valOf, hdu]
  have hdist_u : IsDist links center u du0 := hinv.correct u du0 hdu
  have hfresh_spec : ∀ w, w ∈ freshList (akeys d) ns ↔ (w ∈ ns ∧ w ∉ akeys d) :=
    fun w => mem_freshList ns (akeys d) w
  have hfresh_nodup : (freshList (akeys d) ns).Nodup := freshList_nodup ns (akeys d)
  have hkeys' : akeys (d ++ (freshList (akeys d) ns).map (fun n => (n, valOf d u + 1)))
      = akeys d ++ freshList (akeys d) ns := by
    simp [akeys, Function.comp_def]
  have hlook_old : ∀ v ∈ akeys d,
      alook (d ++ (freshList (akeys d) ns).map (fun n => (n, valOf d u + 1))) v
        = alook d v := by
    intro v hv
    exact alook_append_of_isSome _ _ v ((alook_isSome_iff_mem_keys d v).mpr hv)
  have hlook_fresh : ∀ w ∈ freshList (akeys d) ns,
      alook (d ++ (freshList (akeys d) ns).map (fun n => (n, valOf d u + 1))) w
        = some (valOf d u + 1) := by
    intro w hw
    have hwn : w ∉ akeys d := ((hfresh_spec w).mp hw).2
    rw [alook_append_of_none _ _ w ((alook_eq_none_iff_not_mem_keys d w).mpr hwn),
      alook_mapConst, if_pos hw]
  have hlook_none : ∀ v, v ∉ akeys d → v ∉ freshList (akeys d) ns →
      alook (d ++ (freshList (akeys d) ns).map (fun n => (n, valOf d u + 1))) v
        = none := by
    intro v hv hv'
    rw [alook_append_of_none _ _ v ((alook_eq_none_iff_not_mem_keys d v).mpr hv),
      alook_mapConst, if_neg hv']
  have hval_old : ∀ v ∈ akeys d,
      valOf (d ++ (freshList (akeys d) ns).map (fun n => (n, valOf d u + 1))) v
        = valOf d v := by
    intro v hv
    have h := hlook_old v hv
    show (alook (d ++ (freshList (akeys d) ns).map (fun n => (n, valOf d u + 1))) v).getD 0
      = (alook d v).getD 0
    rw [h]
  have hval_fresh : ∀ w ∈ freshList (akeys d) ns,
      valOf (d ++ (freshList (akeys d) ns).map (fun n => (n, valOf d u + 1))) w
        = valOf d u + 1 := by
    intro w hw
    have h := hlook_fresh w hw
    show (alook (d ++ (freshList (akeys d) ns).map (fun n => (n, valOf d u + 1))) w).getD 0
      = valOf d u + 1
    rw [h]
    rfl
  have hq_nodup : q.Nodup := (List.nodup_cons.mp hinv.q_nodup).2
  have hq_sub : ∀ x ∈ q, x ∈ akeys d := fun x hx =>
    hinv.q_sub x (List.mem_cons_of_mem _ hx)
  have hhead : ∀ x ∈ u :: q, du0 ≤ valOf d x := by
    have hpw := hinv.sorted
    rw [List.map_cons] at hpw
    have hhd := (List.pairwise_cons.mp hpw).1
    intro x hx
    rcases List.mem_cons.mp hx with rfl | hx
    · exact Nat.le_of_eq hval_u.symm
    · exact hval_u ▸ hhd _ (List.mem_map_of_mem _ hx)
  have hband_u : ∀ x ∈ u :: q, valOf d x ≤ du0 + 1 := by
    intro x hx
    have := hinv.band x hx u (List.mem_cons_self _ _)
    rw [hval_u] at this
    exact this
  have hfresh_nodes : ∀ w ∈ freshList (akeys d) ns, w ∈ nodes := by
    intro w hw
    have he : Edge links u w := (hns w).mp ((hfresh_spec w).mp hw).1
    exact (edge_mem_nodes nodes links hl u w he).2
  refine ⟨?_, ?_, ?_, ?_, ?_, ?_, ?_, ?_, ?_⟩
  · rw [hkeys']
    refine List.nodup_append.mpr ⟨hinv.keys_nodup, hfresh_nodup, ?_⟩
    intro a ha hb
    exact ((hfresh_spec a).mp hb).2 ha
  · refine List.nodup_append.mpr ⟨hq_nodup, hfresh_nodup, ?_⟩
    intro a ha hb
    exact ((hfresh_spec a).mp hb).2 (hq_sub a ha)
  · intro x hx
    rw [hkeys']
    rcases List.mem_append.mp hx with hx | hx
    · exact List.mem_append_left _ (hq_sub x hx)
    · exact List.mem_append_right _ hx
  · intro v hv
    rw [hkeys'] at hv
    rcases List.mem_append.mp hv with hv | hv
    · exact hinv.inNodes v hv
    · exact hfresh_nodes v hv
  · rw [hkeys']
    exact List.mem_append_left _ hinv.center_mem
  · intro v n hvn
    by_cases hv : v ∈ akeys d
    · rw [hlook_old v hv] at hvn
      exact hinv.correct v n hvn
    · by_cases hvf : v ∈ freshList (akeys d) ns
      · rw [hlook_fresh v hvf] at hvn
        have hn : n = du0 + 1 := by
          rw [hval_u] at hvn
          exact (Option.some.injEq _ _ ▸ hvn).symm
        subst hn
        have he : Edge links u v := (hns v).mp ((hfresh_spec v).mp hvf).1
        constructor
        · exact Or.inr ⟨u, (edge_mem_linkEnds links u v he).1, hdist_u.1, he⟩
        · intro m hm hreach
          rcases bfs_frontier links center d (u :: q) hinv.center_mem hinv.closed
              hinv.correct m v hreach with h | ⟨x, hxq, k, hxk, hkm⟩
          · exact hv h
          · have hxval : valOf d x = k := by simp [valOf, hxk]
            have hge := hhead x hxq
            omega
      · rw [hlook_none v hv hvf] at hvn
        exact Option.noConfusion hvn
  · rw [List.map_append]
    have hmap_q : q.map (valOf (d ++ (freshList (akeys d) ns).map
        (fun n => (n, valOf d u + 1)))) = q.map (valOf d) := by
      apply List.map_congr_left
      intro x hx
      exact hval_old x (hq_sub x hx)
    have hmap_f : (freshList (akeys d) ns).map (valOf (d ++ (freshList (akeys d) ns).map
        (fun n => (n, valOf d u + 1)))) = (freshList (akeys d) ns).map
        (fun _ => valOf d u + 1) := by
      apply List.map_congr_left
      intro w hw
      exact hval_fresh w hw
    rw [hmap_q, hmap_f]
    refine List.pairwise_append.mpr ⟨?_, pairwise_le_const _ _, ?_⟩
    · have hpw := hinv.sorted
      rw [List.map_cons] at hpw
      exact (List.pairwise_cons.mp hpw).2
    · intro a ha b hb
      rcases List.mem_map.mp ha with ⟨x, hx, rfl⟩
      rcases List.mem_map.mp hb with ⟨w, hw, rfl⟩
      have := hband_u x (List.mem_cons_of_mem _ hx)
      rw [hval_u]
      omega
  · intro x hx y hy
    have hxle : valOf (d ++ (freshList (akeys d) ns).map
        (fun n => (n, valOf d u + 1))) x ≤ du0 + 1 := by
      rcases List.mem_append.mp hx with hx | hx
      · rw [hval_old x (hq_sub x hx)]
        exact hband_u x (List.mem_cons_of_mem _ hx)
      · rw [hval_fresh x hx, hval_u]
    have hyge : du0 ≤ valOf (d ++ (freshList (akeys d) ns).map
        (fun n => (n, valOf d u + 1))) y := by
      rcases List.mem_append.mp hy with hy | hy
      · rw [hval_old y (hq_sub y hy)]
        exact hhead y (List.mem_cons_of_mem _ hy)
      · rw [hval_fresh y hy, hval_u]
        omega
    omega
  · intro v hv hvq w he
    rw [hkeys'] at hv ⊢
    rcases List.mem_append.mp hv with hv | hv
    · by_cases hvu : v = u
      · subst hvu
        have hwns : w ∈ ns := (hns w).mpr he
        by_cases hwk : w ∈ akeys d
        · exact List.mem_append_left _ hwk
        · exact List.mem_append_right _ ((hfresh_spec w).mpr ⟨hwns, hwk⟩)
      · have hvnq : v ∉ u :: q := by
          intro hc
          rcases List.mem_cons.mp hc with rfl | hc
          · exact hvu rfl
          · exact hvq (List.mem_append_left _ hc)
        exact List.mem_append_left _ (hinv.closed v hv hvnq w he)
    · exact absurd (List.mem_append_right q hv) hvq

/-- When the queue is empty the recorded distances are exactly the
shortest-path distances. -/
theorem bfs_final (nodes : List String) (links : List (String × String))
    (center : String) (d : List (String × Nat))
    (hinv : BFSInv nodes links center d []) :
    ∀ v n, alook d v = some n ↔ IsDist links center v n := by
  intro v n
  constructor
  · exact hinv.correct v n
  · intro hd
    rcases bfs_frontier links center d [] hinv.center_mem hinv.closed hinv.correct
        n v hd.1 with h | ⟨x, hx, _⟩
    · obtain ⟨k, hk⟩ := Option.isSome_iff_exists.mp ((alook_isSome_iff_mem_keys d v).mpr h)
      have hdk := hinv.correct v k hk
      rw [isDist_unique links center v hdk hd] at hk
      exact hk
    · exact absurd hx (List.not_mem_nil x)

/-- Fueled BFS loop correctness: from any invariant state with enough fuel,
the loop runs to completion and computes exactly the shortest-path
distances. -/
theorem bfsLoop_correct (nodes : List String) (links : List (String × String))
    (center : String) (adj : List (String × List String))
    (hadjsome : ∀ v, (alook adj v).isSome ↔ v ∈ nodes)
    (hadjmem : ∀ v ns, alook adj v = some ns → ∀ w, w ∈ ns ↔ Edge links v w)
    (hl : ∀ p ∈ links, p.1 ∈ nodes ∧ p.2 ∈ nodes) :
    ∀ (fuel : Nat) (d : List (String × Nat)) (q : List String),
      BFSInv nodes links center d q →
      2 * (nodes.toFinset \ (akeys d).toFinset).card + q.length ≤ fuel →
      ∀ v n, alook (bfsLoop adj fuel q d) v = some n ↔ IsDist links center v n := by
  intro fuel
  induction fuel with
  | zero =>
    intro d q hinv hfuel v n
    have hq : q = [] := List.length_eq_zero.mp (by omega)
    subst hq
    exact bfs_final nodes links center d hinv v n
  | succ fuel ih =>
    intro d q hinv hfuel v n
    cases q with
    | nil => exact bfs_final nodes links center d hinv v n
    | cons u q =>
      have hu_keys : u ∈ akeys d := hinv.q_sub u (List.mem_cons_self _ _)
      have hu_nodes : u ∈ nodes := hinv.inNodes u hu_keys
      obtain ⟨ns, hns⟩ := Option.isSome_iff_exists.mp ((hadjsome u).mpr hu_nodes)
      have hns_spec : ∀ w, w ∈ ns ↔ Edge links u w := hadjmem u ns hns
      have hstep := bfs_step nodes links center hl d u q ns hns_spec hinv
      have hloop : bfsLoop adj (fuel + 1) (u :: q) d
          = bfsLoop adj fuel (q ++ freshList (akeys d) ns)
              (d ++ (freshList (akeys d) ns).map (fun n => (n, valOf d u + 1))) := by
        simp only [bfsLoop, hns, Option.getD_some, bfsVisit_fold]
        rfl
      have hfresh_nodes : ∀ w ∈ freshList (akeys d) ns, w ∈ nodes := by
        intro w hw
        have he : Edge links u w := (hns_spec w).mp ((mem_freshList ns (akeys d) w).mp hw).1
        exact (edge_mem_nodes nodes links hl u w he).2
      have hF_sub : (freshList (akeys d) ns).toFinset ⊆
          nodes.toFinset \ (akeys d).toFinset := by
        intro w hw
        rw [List.mem_toFinset] at hw
        rw [Finset.mem_sdiff, List.mem_toFinset, List.mem_toFinset]
        exact ⟨hfresh_nodes w hw, ((mem_freshList ns (akeys d) w).mp hw).2⟩
      have hkeysF : (akeys (d ++ (freshList (akeys d) ns).map
          (fun n => (n, valOf d u + 1)))).toFinset
          = (akeys d).toFinset ∪ (freshList (akeys d) ns).toFinset := by
        have : akeys (d ++ (freshList (akeys d) ns).map (fun n => (n, valOf d u + 1)))
            = akeys d ++ freshList (akeys d) ns := by
          simp [akeys, Function.comp_def]
        rw [this, List.toFinset_append]
      have hcardF : (freshList (akeys d) ns).toFinset.card
          = (freshList (akeys d) ns).length :=
        List.toFinset_card_of_nodup (freshList_nodup ns (akeys d))
      have hsd : nodes.toFinset \ ((akeys d).toFinset ∪ (freshList (akeys d) ns).toFinset)
          = (nodes.toFinset \ (akeys d).toFinset) \ (freshList (akeys d) ns).toFinset := by
        ext x
        simp only [Finset.mem_sdiff, Finset.mem_union]
        tauto
      have hcard' : (nodes.toFinset \ ((akeys d).toFinset
            ∪ (freshList (akeys d) ns).toFinset)).card
          = (nodes.toFinset \ (akeys d).toFinset).card
            - (freshList (akeys d) ns).length := by
        rw [hsd, Finset.card_sdiff hF_sub, hcardF]
      have hcard_le : (freshList (akeys d) ns).length
          ≤ (nodes.toFinset \ (akeys d).toFinset).card := by
        rw [← hcardF]
        exact Finset.card_le_card hF_sub
      have hμ : 2 * (nodes.toFinset \ (akeys (d ++ (freshList (akeys d) ns).map
            (fun n => (n, valOf d u + 1)))).toFinset).card
          + (q ++ freshList (akeys d) ns).length ≤ fuel := by
        rw [hkeysF, hcard', List.length_append]
        have hfl := hfuel
        rw [List.length_cons] at hfl
        omega
      rw [hloop]
      exact ih _ _ hstep hμ v n

/-- C2: For every node list, link list of unordered entity pairs joining
nodes, and principal entity id among the nodes, `calculateHopDistances`
records the principal at distance 0, records every entity reachable from the
principal at exactly its shortest-path distance in the undirected graph
induced by the links, and omits every entity that is unreachable from the
principal (a disconnected component). -/
theorem calculateHopDistances_bfs (nodes : List String)
    (links : List (String × String)) (center : String)
    (hc : center ∈ nodes)
    (hl : ∀ p ∈ links, p.1 ∈ nodes ∧ p.2 ∈ nodes) :
    alook (calculateHopDistances nodes links center) center = some 0
    ∧ (∀ v n, alook (calculateHopDistances nodes links center) v = some n
        ↔ IsDist links center v n)
    ∧ (∀ v, (∀ m, ¬ ReachIn links center m v)
        → alook (calculateHopDistances nodes links center) v = none) := by
  obtain ⟨hadjsome, hadjmem⟩ := buildAdjacency_spec nodes links
  have hcs : (alook (buildAdjacency nodes links) center).isSome :=
    (hadjsome center).mpr hc
  have hunfold : calculateHopDistances nodes links center
      = bfsLoop (buildAdjacency nodes links)
          (2 * adjSize (buildAdjacency nodes links) + 1) [center] [(center, 0)] := by
    unfold calculateHopDistances
    rw [if_pos hcs]
  have hinv0 : BFSInv nodes links center [(center, 0)] [center] := by
    refine ⟨?_, ?_, ?_, ?_, ?_, ?_, ?_, ?_, ?_⟩
    · simp [akeys]
    · simp
    · intro u hu
      simp at hu
      subst hu
      simp [akeys]
    · intro v hv
      simp [akeys] at hv
      subst hv
      exact hc
    · simp [akeys]
    · intro v n hvn
      by_cases h : center = v
      · subst h
        simp [alook] at hvn
        subst hvn
        exact ⟨show ReachIn links center 0 center from rfl,
          fun m hm => absurd hm (Nat.not_lt_zero m)⟩
      · simp [alook, h] at hvn
    · simp
    · intro x hx y hy
      simp at hx hy
      subst hx
      subst hy
      exact Nat.le_succ _
    · intro v hv hvq
      simp [akeys] at hv
      subst hv
      exact absurd (List.mem_singleton.mpr rfl) hvq
  have hμ0 : 2 * (nodes.toFinset \ (akeys [(center, 0)]).toFinset).card
      + [center].length ≤ 2 * adjSize (buildAdjacency nodes links) + 1 := by
    have hkeys : akeys [(center, (0 : Nat))] = [center] := rfl
    rw [hkeys]
    have hsub : ({center} : Finset String) ⊆ nodes.toFinset :=
      Finset.singleton_subset_iff.mpr (List.mem_toFinset.mpr hc)
    have h1 : (nodes.toFinset \ {center}).card = nodes.toFinset.card - 1 := by
      rw [Finset.card_sdiff hsub, Finset.card_singleton]
    have h2 : nodes.toFinset.card ≤ nodes.length := List.toFinset_card_le nodes
    have h3 : (buildAdjacency nodes links).length = nodes.length :=
      buildAdjacency_length nodes links
    have h4 : (buildAdjacency nodes links).length
        ≤ adjSize (buildAdjacency nodes links) := Nat.le_add_right _ _
    have h5 : 1 ≤ nodes.toFinset.card :=
      Finset.card_pos.mpr ⟨center, List.mem_toFinset.mpr hc⟩
    have h6 : ([center].toFinset : Finset String) = {center} := by simp
    rw [h6, h1]
    simp only [List.length_singleton]
    omega
  have hmain := bfsLoop_correct nodes links center (buildAdjacency nodes links)
    hadjsome hadjmem hl (2 * adjSize (buildAdjacency nodes links) + 1)
    [(center, 0)] [center] hinv0 hμ0
  have hiff : ∀ v n, alook (calculateHopDistances nodes links center) v = some n
      ↔ IsDist links center v n := by
    intro v n
    rw [hunfold]
    exact hmain v n
  refine ⟨?_, hiff, ?_⟩
  · exact (hiff center 0).mpr ⟨show ReachIn links center 0 center from rfl,
      fun m hm => absurd hm (Nat.not_lt_zero m)⟩
  · intro v hv
    cases h : alook (calculateHopDistances nodes links center) v with
    | none => rfl
    | some n => exact absurd ((hiff v n).mp h).1 (hv n)

/-- Witness for C2 on a concrete graph: path P — A — B plus an isolated
node C; B is recorded at distance 2. -/
theorem calculateHopDistances_bfs_witness :
    alook (calculateHopDistances ["P", "A", "B", "C"]
      [("P", "A"), ("A", "B")] "P") "B" = some 2 :=
  ((calculateHopDistances_bfs ["P", "A", "B", "C"] [("P", "A"), ("A", "B")] "P"
    (by decide) (by decide)).2.1 "B" 2).mpr (by decide)

/-! ## C8: the spatial ring layout (`computeNodePositions`, Sidebar.tsx)

The layout node carries the fields `computeNodePositions` reads: `id`,
`hopDistance` (a number that is `Infinity` for unreachable nodes, embedded as
`Option Nat` with `none` standing for `Infinity`) and `importance`.  The three
`Math.random()` streams are injected as functions: one sample per hop group
for the ring radius, and two samples per placed node for the radial and
height variance, each constrained to `[0, 1)` like `Math.random()`. -/
structure SpatialNode where
  id : String
  hopDistance : Option Nat
  importance : ℝ

/-- `node.hopDistance === Infinity ? 10 : node.hopDistance`. -/
def hopBucket (n : SpatialNode) : Nat :=
  match n.hopDistance with
  | none => 10
  | some h => h

/-- `if (!hopGroups.has(hop)) hopGroups.set(hop, []); hopGroups.get(hop)!.push(node)`. -/
def hopGroups (nodes : List SpatialNode) : List (Nat × List SpatialNode) :=
  nodes.foldl (fun m n =>
    aupd (if (alook m (hopBucket n)).isSome then m else aset m (hopBucket n) [])
      (hopBucket n) (fun g => g ++ [n])) []

/-- The sublist of nodes falling in one hop bucket, in input order. -/
def bucketFilter (nodes : List SpatialNode) (h : Nat) : List SpatialNode :=
  nodes.filter (fun n => hopBucket n == h)

/-- The coordinates `computeNodePositions` assigns to the `i`-th node of a
ring of `count` nodes at hop `hop` with the sampled ring radius `radius`. -/
noncomputable def ringPoint (nodeRand1 nodeRand2 : String → ℝ) (radius : ℝ)
    (hop count i : Nat) (n : SpatialNode) : ℝ × ℝ × ℝ :=
  let angle : ℝ := ((i : ℝ) / (count : ℝ)) * Real.pi * 2 + (hop : ℝ) * 0.5
  let variance : ℝ := (nodeRand1 n.id - 0.5) * 30
  let heightVariance : ℝ := (nodeRand2 n.id - 0.5) * 40
  (Real.cos angle * (radius + variance),
   heightVariance + (n.importance - 0.5) * 20,
   Real.sin angle * (radius + variance))

/-- The `groupNodes.forEach((node, i) => ...)` placement loop of one ring. -/
noncomputable def placeRing (nodeRand1 nodeRand2 : String → ℝ) (radius : ℝ)
    (hop count : Nat) :
    List (String × (ℝ × ℝ × ℝ)) → Nat → List SpatialNode →
      List (String × (ℝ × ℝ × ℝ))
  | pos, _, [] => pos
  | pos, i, n :: rest =>
    placeRing nodeRand1 nodeRand2 radius hop count
      (if (alook pos n.id).isSome then pos
       else pos ++ [(n.id, ringPoint nodeRand1 nodeRand2 radius hop count i n)])
      (i + 1) rest

/-- Processing of one hop group: hop 0 is skipped (the principal is already
centered), every other group is laid out on a ring of radius
`hop * 80 + Math.random() * 20`. -/
noncomputable def ringStep (groupRand : Nat → ℝ) (nodeRand1 nodeRand2 : String → ℝ)
    (pos : List (String × (ℝ × ℝ × ℝ))) (g : Nat × List SpatialNode) :
    List (String × (ℝ × ℝ × ℝ)) :=
  if g.1 = 0 then pos
  else placeRing nodeRand1 nodeRand2 ((g.1 : ℝ) * 80 + groupRand g.1 * 20)
    g.1 g.2.length pos 0 g.2

noncomputable def computeNodePositions (groupRand : Nat → ℝ)
    (nodeRand1 nodeRand2 : String → ℝ) (nodes : List SpatialNode) :
    List (String × (ℝ × ℝ × ℝ)) :=
  let epsteinNode := nodes.find? (fun n => n.id == "Jeffrey Epstein")
  let positions0 : List (String × (ℝ × ℝ × ℝ)) :=
    match epsteinNode with
    | some n => [(n.id, (0, 0, 0))]
    | none => []
  (hopGroups nodes).foldl (ringStep groupRand nodeRand1 nodeRand2) positions0

theorem hopGroups_alook (nodes : List SpatialNode) :
    ∀ h, (bucketFilter nodes h = [] → alook (hopGroups nodes) h = none)
      ∧ (bucketFilter nodes h ≠ [] →
          alook (hopGroups nodes) h = some (bucketFilter nodes h)) := by
  induction nodes using List.reverseRecOn with
  | nil =>
    intro h
    exact ⟨fun _ => rfl, fun hc => absurd rfl hc⟩
  | append_singleton L n ih =>
    intro h
    have hstep : hopGroups (L ++ [n]) =
        aupd (if (alook (hopGroups L) (hopBucket n)).isSome then hopGroups L
          else aset (hopGroups L) (hopBucket n) []) (hopBucket n)
          (fun g => g ++ [n]) := by
      unfold hopGroups
      rw [List.foldl_append]
      rfl
    have hfil : bucketFilter (L ++ [n]) h =
        bucketFilter L h ++ (if hopBucket n == h then [n] else []) := by
      unfold bucketFilter
      rw [List.filter_append]
      by_cases hb : hopBucket n == h <;> simp [List.filter, hb]
    by_cases hb : hopBucket n = h
    · subst hb
      have hfil' : bucketFilter (L ++ [n]) (hopBucket n)
          = bucketFilter L (hopBucket n) ++ [n] := by
        rw [hfil, if_pos (beq_self_eq_true _)]
      constructor
      · intro hc
        rw [hfil'] at hc
        exact absurd hc (List.append_ne_nil_of_right_ne_nil _ (by simp))
      · intro _
        rw [hfil', hstep]
        by_cases hs : (alook (hopGroups L) (hopBucket n)).isSome
        · rw [if_pos hs]
          obtain ⟨g, hg⟩ := Option.isSome_iff_exists.mp hs
          have hne : bucketFilter L (hopBucket n) ≠ [] := by
            intro hc
            rw [((ih (hopBucket n)).1 hc)] at hg
            exact Option.noConfusion hg
          have hgval := (ih (hopBucket n)).2 hne
          rw [alook_aupd, if_pos rfl, hgval]
          rfl
        · rw [if_neg hs]
          have hnone : alook (hopGroups L) (hopBucket n) = none := by
            cases hx : alook (hopGroups L) (hopBucket n)
            · rfl
            · exact absurd (by simp [hx]) hs
          have hemp : bucketFilter L (hopBucket n) = [] := by
            by_contra hc
            rw [(ih (hopBucket n)).2 hc] at hnone
            exact Option.noConfusion hnone
          rw [alook_aupd, if_pos rfl, alook_aset, if_pos rfl, hemp]
          rfl
    · have hfil' : bucketFilter (L ++ [n]) h = bucketFilter L h := by
        rw [hfil, if_neg (by simpa using hb)]
        simp
      have hpres : alook (hopGroups (L ++ [n])) h = alook (hopGroups L) h := by
        rw [hstep, alook_aupd, if_neg (fun hc => hb hc.symm)]
        by_cases hs : (alook (hopGroups L) (hopBucket n)).isSome
        · rw [if_pos hs]
        · rw [if_neg hs, alook_aset, if_neg (fun hc => hb hc.symm)]
      rw [hfil', hpres]
      exact ih h

theorem hopGroups_keys_nodup (nodes : List SpatialNode) :
    (akeys (hopGroups nodes)).Nodup := by
  induction nodes using List.reverseRecOn with
  | nil => simp [hopGroups, akeys]
  | append_singleton L n ih =>
    have hstep : hopGroups (L ++ [n]) =
        aupd (if (alook (hopGroups L) (hopBucket n)).isSome then hopGroups L
          else aset (hopGroups L) (hopBucket n) []) (hopBucket n)
          (fun g => g ++ [n]) := by
      unfold hopGroups
      rw [List.foldl_append]
      rfl
    rw [hstep, akeys_aupd]
    by_cases hs : (alook (hopGroups L) (hopBucket n)).isSome
    · rw [if_pos hs]
      exact ih
    · rw [if_neg hs, akeys_aset]
      have hnm : hopBucket n ∉ akeys (hopGroups L) := by
        intro hc
        exact hs ((alook_isSome_iff_mem_keys _ _).mpr hc)
      rw [if_neg hnm]
      simp only [List.nodup_append, List.nodup_cons, List.nodup_nil]
      refine ⟨ih, by simp, ?_⟩
      intro a ha hb
      rw [List.mem_singleton] at hb
      subst hb
      exact hnm ha

theorem hopGroups_mem_eq (nodes : List SpatialNode) :
    ∀ p ∈ hopGroups nodes, p.2 = bucketFilter nodes p.1 := by
  intro p hp
  obtain ⟨h, g⟩ := p
  have halook : alook (hopGroups nodes) h = some g :=
    alook_of_mem_nodup _ (hopGroups_keys_nodup nodes) h g hp
  by_cases hemp : bucketFilter nodes h = []
  · rw [(hopGroups_alook nodes h).1 hemp] at halook
    exact Option.noConfusion halook
  · rw [(hopGroups_alook nodes h).2 hemp] at halook
    simpa using halook.symm

theorem nodup_map_inj {α β : Type} (f : α → β) (l : List α)
    (h : (l.map f).Nodup) : ∀ a ∈ l, ∀ b ∈ l, f a = f b → a = b := by
  induction l with
  | nil => intro a ha; simp at ha
  | cons x xs ih =>
    rw [List.map_cons, List.nodup_cons] at h
    intro a ha b hb hab
    rcases List.mem_cons.mp ha with hax | ha2
    · rcases List.mem_cons.mp hb with hbx | hb2
      · rw [hax, hbx]
      · subst hax
        exact absurd (by rw [hab]; exact List.mem_map_of_mem f hb2) h.1
    · rcases List.mem_cons.mp hb with hbx | hb2
      · subst hbx
        exact absurd (by rw [← hab]; exact List.mem_map_of_mem f ha2) h.1
      · exact ih h.2 a ha2 b hb2 hab

theorem placeRing_append (nodeRand1 nodeRand2 : String → ℝ) (radius : ℝ)
    (hop count : Nat) :
    ∀ (g : List SpatialNode) (pos : List (String × (ℝ × ℝ × ℝ))) (i : Nat),
      ∃ Δ, placeRing nodeRand1 nodeRand2 radius hop count pos i g = pos ++ Δ
        ∧ ∀ k ∈ akeys Δ, ∃ m ∈ g, m.id = k := by
  intro g
  induction g with
  | nil =>
    intro pos i
    exact ⟨[], by simp [placeRing], by simp [akeys]⟩
  | cons n rest ih =>
    intro pos i
    by_cases hs : (alook pos n.id).isSome
    · obtain ⟨Δ, hΔ, hk⟩ := ih pos (i + 1)
      refine ⟨Δ, ?_, ?_⟩
      · rw [placeRing, if_pos hs]
        exact hΔ
      · intro k hkm
        obtain ⟨m, hm, hid⟩ := hk k hkm
        exact ⟨m, List.mem_cons_of_mem _ hm, hid⟩
    · obtain ⟨Δ, hΔ, hk⟩ :=
        ih (pos ++ [(n.id, ringPoint nodeRand1 nodeRand2 radius hop count i n)]) (i + 1)
      refine ⟨(n.id, ringPoint nodeRand1 nodeRand2 radius hop count i n) :: Δ, ?_, ?_⟩
      · rw [placeRing, if_neg hs, hΔ, List.append_assoc]
        rfl
      · intro k hkm
        rcases List.mem_cons.mp hkm with hkm | hkm
        · exact ⟨n, List.mem_cons_self _ _, by rw [hkm]⟩
        · obtain ⟨m, hm, hid⟩ := hk k hkm
          exact ⟨m, List.mem_cons_of_mem _ hm, hid⟩

theorem placeRing_found (nodeRand1 nodeRand2 : String → ℝ) (radius : ℝ)
    (hop count : Nat) (n : SpatialNode) :
    ∀ (g : List SpatialNode) (pos : List (String × (ℝ × ℝ × ℝ))) (i : Nat),
      n ∈ g → (g.map SpatialNode.id).Nodup → alook pos n.id = none →
      ∃ j, alook (placeRing nodeRand1 nodeRand2 radius hop count pos i g) n.id
        = some (ringPoint nodeRand1 nodeRand2 radius hop count j n) := by
  intro g
  induction g with
  | nil => intro pos i hn; simp at hn
  | cons m rest ih =>
    intro pos i hn hnd hpos
    rw [List.map_cons, List.nodup_cons] at hnd
    by_cases hmn : m.id = n.id
    · have hnm : n = m := by
        rcases List.mem_cons.mp hn with rfl | hn
        · rfl
        · exact absurd (hmn ▸ List.mem_map_of_mem SpatialNode.id hn) hnd.1
      subst hnm
      have hs : ¬ (alook pos n.id).isSome := by
        rw [hpos]
        simp
      rw [placeRing, if_neg hs]
      obtain ⟨Δ, hΔ, _⟩ := placeRing_append nodeRand1 nodeRand2 radius hop count rest
        (pos ++ [(n.id, ringPoint nodeRand1 nodeRand2 radius hop count i n)]) (i + 1)
      rw [hΔ]
      refine ⟨i, ?_⟩
      have h1 : alook (pos ++ [(n.id, ringPoint nodeRand1 nodeRand2 radius hop count i n)])
          n.id = some (ringPoint nodeRand1 nodeRand2 radius hop count i n) := by
        rw [alook_append_of_none _ _ _ hpos]
        simp [alook]
      rw [alook_append_of_isSome _ _ _ (by simp [h1]), h1]
    · have hn' : n ∈ rest := by
        rcases List.mem_cons.mp hn with rfl | hn
        · exact absurd rfl hmn
        · exact hn
      by_cases hs : (alook pos m.id).isSome
      · rw [placeRing, if_pos hs]
        exact ih pos (i + 1) hn' hnd.2 hpos
      · rw [placeRing, if_neg hs]
        refine ih _ (i + 1) hn' hnd.2 ?_
        rw [alook_append_of_none _ _ _ hpos]
        simp [alook, hmn]

theorem ringFold_append (groupRand : Nat → ℝ) (nodeRand1 nodeRand2 : String → ℝ) :
    ∀ (gs : List (Nat × List SpatialNode)) (pos : List (String × (ℝ × ℝ × ℝ))),
      ∃ Δ, gs.foldl (ringStep groupRand nodeRand1 nodeRand2) pos = pos ++ Δ
        ∧ ∀ k ∈ akeys Δ, ∃ p ∈ gs, ∃ m ∈ p.2, m.id = k := by
  intro gs
  induction gs with
  | nil =>
    intro pos
    exact ⟨[], by simp, by simp [akeys]⟩
  | cons g gs ih =>
    intro pos
    rw [List.foldl_cons]
    by_cases h0 : g.1 = 0
    · obtain ⟨Δ, hΔ, hk⟩ := ih pos
      refine ⟨Δ, ?_, ?_⟩
      · rw [show ringStep groupRand nodeRand1 nodeRand2 pos g = pos from
          if_pos h0, hΔ]
      · intro k hkm
        obtain ⟨p, hp, hm⟩ := hk k hkm
        exact ⟨p, List.mem_cons_of_mem _ hp, hm⟩
    · obtain ⟨Δ₀, hΔ₀, hk₀⟩ := placeRing_append nodeRand1 nodeRand2
        ((g.1 : ℝ) * 80 + groupRand g.1 * 20) g.1 g.2.length g.2 pos 0
      obtain ⟨Δ, hΔ, hk⟩ := ih (pos ++ Δ₀)
      refine ⟨Δ₀ ++ Δ, ?_, ?_⟩
      · rw [show ringStep groupRand nodeRand1 nodeRand2 pos g
            = placeRing nodeRand1 nodeRand2 ((g.1 : ℝ) * 80 + groupRand g.1 * 20)
              g.1 g.2.length pos 0 g.2 from if_neg h0, hΔ₀, hΔ, List.append_assoc]
      · intro k hkm
        rw [show akeys (Δ₀ ++ Δ) = akeys Δ₀ ++ akeys Δ from by simp [akeys]] at hkm
        rcases List.mem_append.mp hkm with hkm | hkm
        · obtain ⟨m, hm, hid⟩ := hk₀ k hkm
          exact ⟨g, List.mem_cons_self _ _, m, hm, hid⟩
        · obtain ⟨p, hp, hm⟩ := hk k hkm
          exact ⟨p, List.mem_cons_of_mem _ hp, hm⟩

theorem ringFold_found (groupRand : Nat → ℝ) (nodeRand1 nodeRand2 : String → ℝ)
    (nodes : List SpatialNode) (n : SpatialNode) (hn : n ∈ nodes)
    (hids : (nodes.map SpatialNode.id).Nodup) (hb0 : hopBucket n ≠ 0) :
    ∀ (gs : List (Nat × List SpatialNode)) (pos : List (String × (ℝ × ℝ × ℝ))),
      (∀ p ∈ gs, p.2 = bucketFilter nodes p.1) →
      (hopBucket n, bucketFilter nodes (hopBucket n)) ∈ gs →
      alook pos n.id = none →
      ∃ j, alook (gs.foldl (ringStep groupRand nodeRand1 nodeRand2) pos) n.id
        = some (ringPoint nodeRand1 nodeRand2
            ((hopBucket n : ℝ) * 80 + groupRand (hopBucket n) * 20)
            (hopBucket n) (bucketFilter nodes (hopBucket n)).length j n) := by
  have hself : n ∈ bucketFilter nodes (hopBucket n) := by
    unfold bucketFilter
    rw [List.mem_filter]
    exact ⟨hn, beq_self_eq_true _⟩
  have hfilids : ∀ h, ((bucketFilter nodes h).map SpatialNode.id).Nodup := by
    intro h
    exact List.Nodup.sublist (List.Sublist.map _ (List.filter_sublist _)) hids
  intro gs
  induction gs with
  | nil =>
    intro pos _ hmem
    exact absurd hmem (List.not_mem_nil _)
  | cons g gs ih =>
    intro pos hgs hmem hpos
    have hg : g.2 = bucketFilter nodes g.1 := hgs g (List.mem_cons_self _ _)
    rw [List.foldl_cons]
    by_cases hh : g.1 = hopBucket n
    · have h0 : ¬ g.1 = 0 := by rw [hh]; exact hb0
      rw [show ringStep groupRand nodeRand1 nodeRand2 pos g
          = placeRing nodeRand1 nodeRand2 ((g.1 : ℝ) * 80 + groupRand g.1 * 20)
            g.1 g.2.length pos 0 g.2 from if_neg h0]
      have hnin : n ∈ g.2 := by rw [hg, hh]; exact hself
      obtain ⟨j, hj⟩ := placeRing_found nodeRand1 nodeRand2
        ((g.1 : ℝ) * 80 + groupRand g.1 * 20) g.1 g.2.length n g.2 pos 0 hnin
        (by rw [hg]; exact hfilids g.1) hpos
      obtain ⟨Δ, hΔ, _⟩ := ringFold_append groupRand nodeRand1 nodeRand2 gs
        (placeRing nodeRand1 nodeRand2 ((g.1 : ℝ) * 80 + groupRand g.1 * 20)
          g.1 g.2.length pos 0 g.2)
      refine ⟨j, ?_⟩
      rw [hΔ, alook_append_of_isSome _ _ _ (by simp [hj]), hj, hh, hg, hh]
    · have hmem' : (hopBucket n, bucketFilter nodes (hopBucket n)) ∈ gs := by
        rcases List.mem_cons.mp hmem with hc | hc
        · exact absurd (congrArg Prod.fst hc).symm hh
        · exact hc
      have hstep_none : alook (ringStep groupRand nodeRand1 nodeRand2 pos g) n.id
          = none := by
        by_cases h0 : g.1 = 0
        · rw [show ringStep groupRand nodeRand1 nodeRand2 pos g = pos from if_pos h0]
          exact hpos
        · rw [show ringStep groupRand nodeRand1 nodeRand2 pos g
              = placeRing nodeRand1 nodeRand2 ((g.1 : ℝ) * 80 + groupRand g.1 * 20)
                g.1 g.2.length pos 0 g.2 from if_neg h0]
          obtain ⟨Δ₀, hΔ₀, hk₀⟩ := placeRing_append nodeRand1 nodeRand2
            ((g.1 : ℝ) * 80 + groupRand g.1 * 20) g.1 g.2.length g.2 pos 0
          rw [hΔ₀, alook_append_of_none _ _ _ hpos]
          rw [alook_eq_none_iff_not_mem_keys]
          intro hc
          obtain ⟨m, hm, hid⟩ := hk₀ n.id hc
          have hmnodes : m ∈ nodes := by
            rw [hg] at hm
            exact List.mem_of_mem_filter hm
          have : m = n := nodup_map_inj SpatialNode.id nodes hids m hmnodes n hn hid
          subst this
          rw [hg] at hm
          unfold bucketFilter at hm
          rw [List.mem_filter] at hm
          exact hh (beq_iff_eq.mp hm.2).symm
      exact ih (ringStep groupRand nodeRand1 nodeRand2 pos g)
        (fun p hp => hgs p (List.mem_cons_of_mem _ hp)) hmem' hstep_none

/-- C8: In the spatial ring layout, every node is grouped into the ring bucket
of its integer hop distance (`Infinity`, embedded as `none`, goes to the fixed
bucket 10), the principal "Jeffrey Epstein" is placed at the origin, and the
radial distance of every other placed node with bucket `h` lies in the band
`[80h − 15, 80h + 35)`; consequently, for any two nodes with finite hop
distances `0 < k1 < k2` the node at `k2` is strictly farther out than the node
at `k1`, for all values of the bounded random jitter. -/
theorem computeNodePositions_rings (groupRand : Nat → ℝ)
    (nodeRand1 nodeRand2 : String → ℝ)
    (hg : ∀ h, 0 ≤ groupRand h ∧ groupRand h < 1)
    (hr1 : ∀ s, 0 ≤ nodeRand1 s ∧ nodeRand1 s < 1)
    (nodes : List SpatialNode)
    (hids : (nodes.map SpatialNode.id).Nodup) :
    (∀ n ∈ nodes, ∃ g, alook (hopGroups nodes) (hopBucket n) = some g ∧ n ∈ g
      ∧ ∀ m, m ∈ g ↔ (m ∈ nodes ∧ hopBucket m = hopBucket n))
    ∧ (∀ e ∈ nodes, e.id = "Jeffrey Epstein" →
        alook (computeNodePositions groupRand nodeRand1 nodeRand2 nodes)
          "Jeffrey Epstein" = some (0, 0, 0))
    ∧ (∀ n ∈ nodes, n.id ≠ "Jeffrey Epstein" → hopBucket n ≠ 0 →
        ∃ x y z, alook (computeNodePositions groupRand nodeRand1 nodeRand2 nodes) n.id
            = some (x, y, z)
          ∧ ∃ rad, x ^ 2 + z ^ 2 = rad ^ 2
            ∧ 80 * (hopBucket n : ℝ) - 15 ≤ rad ∧ rad < 80 * (hopBucket n : ℝ) + 35)
    ∧ (∀ n1 ∈ nodes, ∀ n2 ∈ nodes, ∀ k1 k2 : Nat,
        n1.hopDistance = some k1 → n2.hopDistance = some k2 →
        n1.id ≠ "Jeffrey Epstein" → n2.id ≠ "Jeffrey Epstein" →
        0 < k1 → k1 < k2 →
        ∀ x1 y1 z1 x2 y2 z2,
          alook (computeNodePositions groupRand nodeRand1 nodeRand2 nodes) n1.id
            = some (x1, y1, z1) →
          alook (computeNodePositions groupRand nodeRand1 nodeRand2 nodes) n2.id
            = some (x2, y2, z2) →
          x1 ^ 2 + z1 ^ 2 < x2 ^ 2 + z2 ^ 2) := by
  have hself : ∀ n ∈ nodes, n ∈ bucketFilter nodes (hopBucket n) := by
    intro n hn
    unfold bucketFilter
    rw [List.mem_filter]
    exact ⟨hn, beq_self_eq_true _⟩
  have hband : ∀ n ∈ nodes, n.id ≠ "Jeffrey Epstein" → hopBucket n ≠ 0 →
      ∃ x y z, alook (computeNodePositions groupRand nodeRand1 nodeRand2 nodes) n.id
          = some (x, y, z)
        ∧ ∃ rad, x ^ 2 + z ^ 2 = rad ^ 2
          ∧ 80 * (hopBucket n : ℝ) - 15 ≤ rad ∧ rad < 80 * (hopBucket n : ℝ) + 35 := by
    intro n hn hne hb0
    have hmem : (hopBucket n, bucketFilter nodes (hopBucket n)) ∈ hopGroups nodes := by
      have hne' : bucketFilter nodes (hopBucket n) ≠ [] :=
        List.ne_nil_of_mem (hself n hn)
      exact alook_mem _ _ _ ((hopGroups_alook nodes (hopBucket n)).2 hne')
    cases hfind : nodes.find? (fun m => m.id == "Jeffrey Epstein") with
    | none =>
      have hcompute : computeNodePositions groupRand nodeRand1 nodeRand2 nodes
          = (hopGroups nodes).foldl (ringStep groupRand nodeRand1 nodeRand2) [] := by
        unfold computeNodePositions
        rw [hfind]
      obtain ⟨j, hj⟩ := ringFold_found groupRand nodeRand1 nodeRand2 nodes n hn hids hb0
        (hopGroups nodes) [] (hopGroups_mem_eq nodes) hmem rfl
      rw [← hcompute] at hj
      refine ⟨_, _, _, hj, (hopBucket n : ℝ) * 80 + groupRand (hopBucket n) * 20
        + (nodeRand1 n.id - 0.5) * 30, ?_, ?_, ?_⟩
      · have hcs := Real.sin_sq_add_cos_sq
            (((j : ℝ) / ((bucketFilter nodes (hopBucket n)).length : ℝ)) * Real.pi * 2
              + (hopBucket n : ℝ) * 0.5)
        linear_combination ((hopBucket n : ℝ) * 80 + groupRand (hopBucket n) * 20
          + (nodeRand1 n.id - 0.5) * 30) ^ 2 * hcs
      · have h1 := (hg (hopBucket n)).1
        have h2 := (hr1 n.id).1
        nlinarith
      · have h1 := (hg (hopBucket n)).2
        have h2 := (hr1 n.id).2
        nlinarith
    | some e =>
      have heid : e.id = "Jeffrey Epstein" := by
        have := List.find?_some hfind
        simpa using this
      have hcompute : computeNodePositions groupRand nodeRand1 nodeRand2 nodes
          = (hopGroups nodes).foldl (ringStep groupRand nodeRand1 nodeRand2)
              [(e.id, (0, 0, 0))] := by
        unfold computeNodePositions
        rw [hfind]
      have hpos0 : alook [(e.id, ((0 : ℝ), (0 : ℝ), (0 : ℝ)))] n.id = none := by
        rw [alook, if_neg (heid ▸ fun hc => hne (hc ▸ rfl))]
        rfl
      obtain ⟨j, hj⟩ := ringFold_found groupRand nodeRand1 nodeRand2 nodes n hn hids hb0
        (hopGroups nodes) [(e.id, (0, 0, 0))] (hopGroups_mem_eq nodes) hmem hpos0
      rw [← hcompute] at hj
      refine ⟨_, _, _, hj, (hopBucket n : ℝ) * 80 + groupRand (hopBucket n) * 20
        + (nodeRand1 n.id - 0.5) * 30, ?_, ?_, ?_⟩
      · have hcs := Real.sin_sq_add_cos_sq
            (((j : ℝ) / ((bucketFilter nodes (hopBucket n)).length : ℝ)) * Real.pi * 2
              + (hopBucket n : ℝ) * 0.5)
        linear_combination ((hopBucket n : ℝ) * 80 + groupRand (hopBucket n) * 20
          + (nodeRand1 n.id - 0.5) * 30) ^ 2 * hcs
      · have h1 := (hg (hopBucket n)).1
        have h2 := (hr1 n.id).1
        nlinarith
      · have h1 := (hg (hopBucket n)).2
        have h2 := (hr1 n.id).2
        nlinarith
  refine ⟨?_, ?_, hband, ?_⟩
  · intro n hn
    have hne' : bucketFilter nodes (hopBucket n) ≠ [] :=
      List.ne_nil_of_mem (hself n hn)
    refine ⟨bucketFilter nodes (hopBucket n),
      (hopGroups_alook nodes (hopBucket n)).2 hne', hself n hn, ?_⟩
    intro m
    unfold bucketFilter
    rw [List.mem_filter]
    constructor
    · intro ⟨h1, h2⟩
      exact ⟨h1, beq_iff_eq.mp h2⟩
    · intro ⟨h1, h2⟩
      exact ⟨h1, beq_iff_eq.mpr h2⟩
  · intro e he heid
    have hfs : (nodes.find? (fun m => m.id == "Jeffrey Epstein")).isSome := by
      rw [List.find?_isSome]
      exact ⟨e, he, by simp [heid]⟩
    obtain ⟨e₀, hfind⟩ := Option.isSome_iff_exists.mp hfs
    have heid₀ : e₀.id = "Jeffrey Epstein" := by
      have := List.find?_some hfind
      simpa using this
    have hcompute : computeNodePositions groupRand nodeRand1 nodeRand2 nodes
        = (hopGroups nodes).foldl (ringStep groupRand nodeRand1 nodeRand2)
            [(e₀.id, (0, 0, 0))] := by
      unfold computeNodePositions
      rw [hfind]
    obtain ⟨Δ, hΔ, _⟩ := ringFold_append groupRand nodeRand1 nodeRand2
      (hopGroups nodes) [(e₀.id, (0, 0, 0))]
    have h0 : alook [(e₀.id, ((0 : ℝ), (0 : ℝ), (0 : ℝ)))] "Jeffrey Epstein"
        = some (0, 0, 0) := by
      rw [alook, if_pos heid₀]
    have hs0 : (alook [(e₀.id, ((0 : ℝ), (0 : ℝ), (0 : ℝ)))] "Jeffrey Epstein").isSome := by
      rw [h0]
      rfl
    rw [hcompute, hΔ, alook_append_of_isSome _ Δ _ hs0, h0]
  · intro n1 hn1 n2 hn2 k1 k2 hk1 hk2 hne1 hne2 hk1pos hk12 x1 y1 z1 x2 y2 z2 hp1 hp2
    have hb1 : hopBucket n1 = k1 := by simp [hopBucket, hk1]
    have hb2 : hopBucket n2 = k2 := by simp [hopBucket, hk2]
    obtain ⟨xa, ya, za, hpa, rad1, hsq1, hlo1, hhi1⟩ :=
      hband n1 hn1 hne1 (by rw [hb1]; omega)
    obtain ⟨xb, yb, zb, hpb, rad2, hsq2, hlo2, hhi2⟩ :=
      hband n2 hn2 hne2 (by rw [hb2]; omega)
    rw [hp1] at hpa
    rw [hp2] at hpb
    have hxa : x1 = xa ∧ y1 = ya ∧ z1 = za := by
      have h := Option.some.inj hpa
      rw [Prod.mk.injEq, Prod.mk.injEq] at h
      exact h
    have hxb : x2 = xb ∧ y2 = yb ∧ z2 = zb := by
      have h := Option.some.inj hpb
      rw [Prod.mk.injEq, Prod.mk.injEq] at h
      exact h
    rw [hxa.1, hxa.2.2, hxb.1, hxb.2.2, hsq1, hsq2]
    rw [hb1] at hlo1 hhi1
    rw [hb2] at hlo2 hhi2
    have hcast : (k1 : ℝ) + 1 ≤ (k2 : ℝ) := by exact_mod_cast hk12
    have hk1r : (1 : ℝ) ≤ (k1 : ℝ) := by exact_mod_cast hk1pos
    have hrad1pos : 0 < rad1 := by nlinarith
    have hlt : rad1 < rad2 := by nlinarith
    nlinarith

/-- Witness for C8: with all jitter samples fixed to 0, on a three-node graph
the principal is placed at the origin. -/
theorem computeNodePositions_rings_witness :
    alook (computeNodePositions (fun _ => (0 : ℝ)) (fun _ => (0 : ℝ)) (fun _ => (0 : ℝ))
      [⟨"Jeffrey Epstein", some 0, 1⟩, ⟨"A", some 1, 1/2⟩, ⟨"B", none, 0⟩])
      "Jeffrey Epstein" = some (0, 0, 0) :=
  (computeNodePositions_rings (fun _ => 0) (fun _ => 0) (fun _ => 0)
    (fun _ => ⟨le_refl 0, by norm_num⟩) (fun _ => ⟨le_refl 0, by norm_num⟩)
    [⟨"Jeffrey Epstein", some 0, 1⟩, ⟨"A", some 1, 1/2⟩, ⟨"B", none, 0⟩]
    (by decide)).2.1 ⟨"Jeffrey Epstein", some 0, 1⟩ (List.mem_cons_self _ _) rfl

/-! ## C9/C10: the conversational query builder (`askAI`, ai-explanations.ts)

`askAI` talks to two external collaborators: the deep-search service
(`deepSearch` from `../api`, absent from the checkout) and the language-model
HTTP endpoint.  Both are injected as function parameters: a lookup
`String → Option DeepSearchResult` (`none` embeds a thrown/failed lookup,
which the source catches and turns into `null`), and a chat call returning a
`ChatOutcome` (`fail` embeds a thrown fetch or a non-ok response — both reach
the outer catch — and `ok c` the optionally-missing message content, with the
empty string falsy under `||`). -/

/-- Modelled from the spec: `deepSearch(term, thorough) -> {events, documents,
actors, excerpts, query, totalExcerpts}` with deduplication keys event `id`,
document `doc_id`, actor `name`, and a truncated-excerpt key; the payload
fields beyond the keys are opaque to `askAI` and summarized as one string. -/
structure DSEvent where
  id : Int
  summary : String
deriving DecidableEq, Repr

/-- Modelled from the spec: a matched document, keyed by `doc_id`. -/
structure DSDoc where
  doc_id : String
  summary : String
deriving DecidableEq, Repr

/-- Modelled from the spec: a matched actor, keyed by `name`. -/
structure DSActor where
  name : String
deriving DecidableEq, Repr

/-- Modelled from the spec: a matched free-text excerpt. -/
structure DSExcerpt where
  doc_id : String
  context : String
deriving DecidableEq, Repr

/-- Modelled from the spec: the deep-search result record. -/
structure DeepSearchResult where
  events : List DSEvent
  documents : List DSDoc
  actors : List DSActor
  excerpts : List DSExcerpt
  query : String
  totalExcerpts : Int
deriving DecidableEq, Repr

/-- The outcome of the language-model HTTP call: `fail` for a thrown fetch or
non-ok status, `ok c` for a response whose `content` field is `c`. -/
inductive ChatOutcome where
  | fail : ChatOutcome
  | ok : Option String → ChatOutcome

/-- `String.prototype.trim`. -/
def jsTrim (s : String) : String :=
  String.mk (((s.data.dropWhile Char.isWhitespace).reverse.dropWhile
    Char.isWhitespace).reverse)

def stopWords : List String := ["what", "is", "the", "a", "an", "who", "where",
  "when", "how", "why", "did", "do", "does", "was", "were", "are", "about",
  "tell", "me", "you", "your", "know", "can", "could", "would", "should",
  "have", "has", "had", "with", "for", "that", "this", "there", "their",
  "they", "them", "any", "some"]

/-- `.replace(/[?!.,'"]/g, '')`. -/
def stripPunct (cs : List Char) : List Char :=
  cs.filter (fun c => !(c = '?' || c = '!' || c = '.' || c = ',' || c = '\'' || c = '"'))

/-- `.split(/\s+/)`: whitespace runs separate the pieces; a leading run yields
one empty piece, exactly as in JavaScript. -/
def splitWsAux : List Char → List Char → Bool → List String
  | [], acc, _ => [String.mk acc.reverse]
  | c :: cs, acc, prevWs =>
    if c.isWhitespace then
      if prevWs then splitWsAux cs acc true
      else String.mk acc.reverse :: splitWsAux cs [] true
    else splitWsAux cs (c :: acc) false

/-- `question.match(/"([^"]+)"|'([^']+)'/g)`: left-to-right scan; a quote
opens a match only when the same quote reappears with a nonempty body, and
the scan resumes after the closing quote (the `Nat` argument skips the rest
of an emitted match). -/
def scanQuotedAux : List Char → Nat → List (List Char)
  | [], _ => []
  | _ :: cs, skip + 1 => scanQuotedAux cs skip
  | c :: cs, 0 =>
    if c = '"' || c = '\'' then
      let pre := cs.takeWhile (fun x => x != c)
      if pre.length < cs.length && !pre.isEmpty then
        (c :: (pre ++ [c])) :: scanQuotedAux cs (pre.length + 1)
      else scanQuotedAux cs 0
    else scanQuotedAux cs 0

def isLocalChar (c : Char) : Bool := c.isAlphanum || c = '.' || c = '_' || c = '-'

def isDomainChar (c : Char) : Bool := c.isAlphanum || c = '.' || c = '-'

/-- `question.match(/[a-zA-Z0-9._-]+@[a-zA-Z0-9.-]+/g)`: maximal local part,
an `@`, and a nonempty maximal domain part; on failure the scan advances one
character, on success it resumes after the match. -/
def scanEmailsAux : List Char → Nat → List (List Char)
  | [], _ => []
  | _ :: cs, skip + 1 => scanEmailsAux cs skip
  | c :: cs, 0 =>
    if isLocalChar c then
      let loc := cs.takeWhile isLocalChar
      match cs.drop loc.length with
      | '@' :: rest2 =>
        let dom := rest2.takeWhile isDomainChar
        if dom.isEmpty then scanEmailsAux cs 0
        else (c :: loc ++ '@' :: dom) :: scanEmailsAux cs (loc.length + 1 + dom.length)
      | _ => scanEmailsAux cs 0
    else scanEmailsAux cs 0

def isWordChar (c : Char) : Bool := c.isAlphanum || c = '_'

/-- `question.match(/\b[a-zA-Z]+[0-9]+[a-zA-Z0-9]*\b/g)`: letters, then
digits, then alphanumerics, greedily, between word boundaries; the `Bool`
tracks whether the previous character was a word character. -/
def scanUsernamesAux : List Char → Bool → Nat → List (List Char)
  | [], _, _ => []
  | c :: cs, _, skip + 1 => scanUsernamesAux cs (isWordChar c) skip
  | c :: cs, prev, 0 =>
    if !prev && c.isAlpha then
      let as' := cs.takeWhile Char.isAlpha
      let r1 := cs.drop as'.length
      let ds := r1.takeWhile Char.isDigit
      if ds.isEmpty then scanUsernamesAux cs (isWordChar c) 0
      else
        let r2 := r1.drop ds.length
        let al := r2.takeWhile Char.isAlphanum
        let bd := match r2.drop al.length with
          | [] => true
          | x :: _ => !isWordChar x
        if bd then
          (c :: as' ++ ds ++ al) :: scanUsernamesAux cs (isWordChar c)
            (as'.length + ds.length + al.length)
        else scanUsernamesAux cs (isWordChar c) 0
    else scanUsernamesAux cs (isWordChar c) 0

/-- `extractSearchTerms`: lowercased, punctuation-stripped words longer than
two characters that are not stop words, plus quoted phrases (quotes stripped),
e-mail-like and username-like patterns from the raw question, deduplicated
preserving first occurrence (`[...new Set(words)]`). -/
def extractSearchTerms (question : String) : List String :=
  let words := (splitWsAux (stripPunct (strToLower question).data) [] false).filter
    (fun w => w.length > 2 && !(stopWords.contains w))
  let quoted := (scanQuotedAux question.data 0).map
    (fun m => String.mk (m.filter (fun c => !(c = '\'' || c = '"'))))
  let emails := (scanEmailsAux question.data 0).map String.mk
  let usernames := (scanUsernamesAux question.data false 0).map String.mk
  (words ++ quoted ++ emails ++ usernames).foldl sadd []

/-- One `if (!seen.has(key)) { seen.add(key); out.push(item) }` step of the
merge loops. -/
def pushItem {α κ : Type} [DecidableEq κ] (key : α → κ)
    (st : List κ × List α) (x : α) : List κ × List α :=
  if key x ∈ st.1 then st else (st.1 ++ [key x], st.2 ++ [x])

/-- The four seen-set/output pairs of the merge loop. -/
structure MergeAcc where
  ev : List Int × List DSEvent
  dc : List String × List DSDoc
  ac : List String × List DSActor
  ex : List String × List DSExcerpt

/-- The excerpt dedup key: the doc id and the first 50 characters of the
context. -/
def excerptKey (x : DSExcerpt) : String :=
  x.doc_id ++ ":" ++ String.mk (x.context.data.take 50)

/-- Merging one deep-search result into the accumulated unique items. -/
def mergeOne (acc : MergeAcc) (r : DeepSearchResult) : MergeAcc where
  ev := r.events.foldl (pushItem (fun e => e.id)) acc.ev
  dc := r.documents.foldl (pushItem (fun d => d.doc_id)) acc.dc
  ac := r.actors.foldl (pushItem (fun a => a.name)) acc.ac
  ex := r.excerpts.foldl (pushItem excerptKey) acc.ex

/-- The assembled context: all lookups merged in issue order with first-seen
dedup, the query field set to the most specific term, `totalExcerpts` to the
number of unique excerpts. -/
def mergeResults (rs : List DeepSearchResult) (q : String) : DeepSearchResult :=
  let acc := rs.foldl mergeOne ⟨([], []), ([], []), ([], []), ([], [])⟩
  ⟨acc.ev.2, acc.dc.2, acc.ac.2, acc.ex.2, q, Int.ofNat acc.ex.2.length⟩

/-- The extracted terms sorted by descending length (stable, as in V8). -/
def sortedTermsOf (question : String) : List String :=
  stableSort (fun a b => String.length b ≤ String.length a)
    (extractSearchTerms question)

/-- The up-to-five most specific terms actually sent to the deep search. -/
def searchedTermsOf (question : String) : List String :=
  (sortedTermsOf question).take 5

/-- The `searchResults` value handed to the chat call: `none` when no term was
extracted or every lookup failed, otherwise the merge of the successful
lookups. -/
def searchPhase (dsF : String → Option DeepSearchResult) (question : String) :
    Option DeepSearchResult :=
  if (extractSearchTerms question).length > 0
      ∧ ((searchedTermsOf question).filterMap dsF).length > 0 then
    some (mergeResults ((searchedTermsOf question).filterMap dsF)
      ((sortedTermsOf question).headD ""))
  else none

/-- `askAI`, with the API-key presence, the deep search and the chat call
injected. -/
def askAI (hasKey : Bool) (dsF : String → Option DeepSearchResult)
    (chatF : List Rel → String → Option DeepSearchResult → ChatOutcome)
    (question : String) (rels : List Rel) : String :=
  if !hasKey then "I'm not answering questions without my lawyer present."
  else if jsTrim question = "" then "What would you like to know?"
  else
    match chatF rels question (searchPhase dsF question) with
    | ChatOutcome.fail => "I'm invoking my Fifth Amendment rights on that one."
    | ChatOutcome.ok none => "I decline to answer that question."
    | ChatOutcome.ok (some s) =>
      if s = "" then "I decline to answer that question." else s

theorem pushFold_spec {α κ : Type} [DecidableEq κ] (key : α → κ) :
    ∀ (xs : List α) (st : List κ × List α), st.1 = st.2.map key →
      (xs.foldl (pushItem key) st).1 = (xs.foldl (pushItem key) st).2.map key
      ∧ (∃ Δ, (xs.foldl (pushItem key) st).2 = st.2 ++ Δ ∧ ∀ x ∈ Δ, x ∈ xs)
      ∧ (∀ x ∈ xs, key x ∈ (xs.foldl (pushItem key) st).2.map key)
      ∧ (st.1.Nodup → (xs.foldl (pushItem key) st).1.Nodup) := by
  intro xs
  induction xs with
  | nil =>
    intro st hwf
    exact ⟨hwf, ⟨[], by simp, by simp⟩, by simp, fun h => h⟩
  | cons x xs ih =>
    intro st hwf
    rw [List.foldl_cons]
    by_cases hx : key x ∈ st.1
    · have hpush : pushItem key st x = st := by
        unfold pushItem
        rw [if_pos hx]
      rw [hpush]
      obtain ⟨hwf', ⟨Δ, hΔ, hΔm⟩, hcov, hnd⟩ := ih st hwf
      refine ⟨hwf', ⟨Δ, hΔ, fun y hy => List.mem_cons_of_mem _ (hΔm y hy)⟩, ?_, hnd⟩
      intro y hy
      rcases List.mem_cons.mp hy with rfl | hy
      · rw [hΔ, List.map_append]
        exact List.mem_append_left _ (hwf ▸ hx)
      · exact hcov y hy
    · have hpush : pushItem key st x = (st.1 ++ [key x], st.2 ++ [x]) := by
        unfold pushItem
        rw [if_neg hx]
      rw [hpush]
      have hwf2 : (st.1 ++ [key x], st.2 ++ [x]).1 = (st.1 ++ [key x], st.2 ++ [x]).2.map key := by
        simp [hwf]
      obtain ⟨hwf', ⟨Δ, hΔ, hΔm⟩, hcov, hnd⟩ := ih _ hwf2
      refine ⟨hwf', ⟨x :: Δ, ?_, ?_⟩, ?_, ?_⟩
      · rw [hΔ]
        simp
      · intro y hy
        rcases List.mem_cons.mp hy with rfl | hy
        · exact List.mem_cons_self _ _
        · exact List.mem_cons_of_mem _ (hΔm y hy)
      · intro y hy
        rcases List.mem_cons.mp hy with rfl | hy
        · rw [hΔ, List.map_append]
          exact List.mem_append_left _ (by simp)
        · exact hcov y hy
      · intro hndst
        refine hnd ?_
        simp only [List.nodup_append, List.nodup_cons, List.nodup_nil]
        refine ⟨hndst, by simp, ?_⟩
        intro a ha hb
        rw [List.mem_singleton] at hb
        subst hb
        exact hx ha

theorem nestedFold_spec {α κ : Type} [DecidableEq κ] (key : α → κ)
    (proj : DeepSearchResult → List α) :
    ∀ (rs : List DeepSearchResult) (st : List κ × List α), st.1 = st.2.map key →
      (rs.foldl (fun p r => (proj r).foldl (pushItem key) p) st).1
        = (rs.foldl (fun p r => (proj r).foldl (pushItem key) p) st).2.map key
      ∧ (∃ Δ, (rs.foldl (fun p r => (proj r).foldl (pushItem key) p) st).2 = st.2 ++ Δ
          ∧ ∀ x ∈ Δ, ∃ r ∈ rs, x ∈ proj r)
      ∧ (∀ r ∈ rs, ∀ x ∈ proj r,
          key x ∈ (rs.foldl (fun p r => (proj r).foldl (pushItem key) p) st).2.map key)
      ∧ (st.1.Nodup → (rs.foldl (fun p r => (proj r).foldl (pushItem key) p) st).1.Nodup) := by
  intro rs
  induction rs with
  | nil =>
    intro st hwf
    exact ⟨hwf, ⟨[], by simp, by simp⟩, by simp, fun h => h⟩
  | cons r rs ih =>
    intro st hwf
    rw [List.foldl_cons]
    obtain ⟨hwf1, ⟨Δ₁, hΔ₁, hΔ₁m⟩, hcov1, hnd1⟩ := pushFold_spec key (proj r) st hwf
    obtain ⟨hwf', ⟨Δ, hΔ, hΔm⟩, hcov, hnd⟩ := ih ((proj r).foldl (pushItem key) st) hwf1
    refine ⟨hwf', ⟨Δ₁ ++ Δ, ?_, ?_⟩, ?_, fun h => hnd (hnd1 h)⟩
    · rw [hΔ, hΔ₁, List.append_assoc]
    · intro x hx
      rcases List.mem_append.mp hx with hx | hx
      · exact ⟨r, List.mem_cons_self _ _, hΔ₁m x hx⟩
      · obtain ⟨r', hr', hxr⟩ := hΔm x hx
        exact ⟨r', List.mem_cons_of_mem _ hr', hxr⟩
    · intro r' hr' x hx
      rcases List.mem_cons.mp hr' with rfl | hr'
      · have hthis := hcov1 x hx
        rw [hΔ₁] at hthis
        rw [hΔ, hΔ₁, List.map_append]
        exact List.mem_append_left _ hthis
      · exact hcov r' hr' x hx

theorem mergeAcc_proj (rs : List DeepSearchResult) :
    ∀ acc : MergeAcc,
      (rs.foldl mergeOne acc).ev
          = rs.foldl (fun p r => r.events.foldl (pushItem (fun e => e.id)) p) acc.ev
      ∧ (rs.foldl mergeOne acc).dc
          = rs.foldl (fun p r => r.documents.foldl (pushItem (fun d => d.doc_id)) p) acc.dc
      ∧ (rs.foldl mergeOne acc).ac
          = rs.foldl (fun p r => r.actors.foldl (pushItem (fun a => a.name)) p) acc.ac
      ∧ (rs.foldl mergeOne acc).ex
          = rs.foldl (fun p r => r.excerpts.foldl (pushItem excerptKey) p) acc.ex := by
  induction rs with
  | nil => intro acc; exact ⟨rfl, rfl, rfl, rfl⟩
  | cons r rs ih =>
    intro acc
    simp only [List.foldl_cons]
    exact ih (mergeOne acc r)

/-- The merge of the lookup results: every merged item comes from one of the
results, every result item is represented by key, and the keys are unique in
each of the four categories. -/
theorem mergeResults_spec (rs : List DeepSearchResult) (q : String) :
    ((∀ e ∈ (mergeResults rs q).events, ∃ r ∈ rs, e ∈ r.events)
      ∧ (∀ r ∈ rs, ∀ e ∈ r.events, ∃ e' ∈ (mergeResults rs q).events, e'.id = e.id)
      ∧ ((mergeResults rs q).events.map (fun e => e.id)).Nodup)
    ∧ ((∀ d ∈ (mergeResults rs q).documents, ∃ r ∈ rs, d ∈ r.documents)
      ∧ (∀ r ∈ rs, ∀ d ∈ r.documents,
          ∃ d' ∈ (mergeResults rs q).documents, d'.doc_id = d.doc_id)
      ∧ ((mergeResults rs q).documents.map (fun d => d.doc_id)).Nodup)
    ∧ ((∀ a ∈ (mergeResults rs q).actors, ∃ r ∈ rs, a ∈ r.actors)
      ∧ (∀ r ∈ rs, ∀ a ∈ r.actors, ∃ a' ∈ (mergeResults rs q).actors, a'.name = a.name)
      ∧ ((mergeResults rs q).actors.map (fun a => a.name)).Nodup)
    ∧ ((∀ x ∈ (mergeResults rs q).excerpts, ∃ r ∈ rs, x ∈ r.excerpts)
      ∧ (∀ r ∈ rs, ∀ x ∈ r.excerpts,
          ∃ x' ∈ (mergeResults rs q).excerpts, excerptKey x' = excerptKey x)
      ∧ ((mergeResults rs q).excerpts.map excerptKey).Nodup) := by
  obtain ⟨hev, hdc, hac, hex⟩ :=
    mergeAcc_proj rs ⟨([], []), ([], []), ([], []), ([], [])⟩
  have hEv := nestedFold_spec (fun e : DSEvent => e.id) (fun r => r.events) rs ([], []) rfl
  have hDc := nestedFold_spec (fun d : DSDoc => d.doc_id) (fun r => r.documents) rs
    ([], []) rfl
  have hAc := nestedFold_spec (fun a : DSActor => a.name) (fun r => r.actors) rs
    ([], []) rfl
  have hEx := nestedFold_spec excerptKey (fun r => r.excerpts) rs ([], []) rfl
  have hevents : (mergeResults rs q).events
      = (rs.foldl (fun p r => r.events.foldl (pushItem (fun e => e.id)) p) ([], [])).2 := by
    show (rs.foldl mergeOne ⟨([], []), ([], []), ([], []), ([], [])⟩).ev.2 = _
    rw [hev]
  have hdocs : (mergeResults rs q).documents
      = (rs.foldl (fun p r => r.documents.foldl (pushItem (fun d => d.doc_id)) p)
          ([], [])).2 := by
    show (rs.foldl mergeOne ⟨([], []), ([], []), ([], []), ([], [])⟩).dc.2 = _
    rw [hdc]
  have hactors : (mergeResults rs q).actors
      = (rs.foldl (fun p r => r.actors.foldl (pushItem (fun a => a.name)) p)
          ([], [])).2 := by
    show (rs.foldl mergeOne ⟨([], []), ([], []), ([], []), ([], [])⟩).ac.2 = _
    rw [hac]
  have hexc : (mergeResults rs q).excerpts
      = (rs.foldl (fun p r => r.excerpts.foldl (pushItem excerptKey) p) ([], [])).2 := by
    show (rs.foldl mergeOne ⟨([], []), ([], []), ([], []), ([], [])⟩).ex.2 = _
    rw [hex]
  refine ⟨⟨?_, ?_, ?_⟩, ⟨?_, ?_, ?_⟩, ⟨?_, ?_, ?_⟩, ⟨?_, ?_, ?_⟩⟩
  · intro e he
    rw [hevents] at he
    obtain ⟨Δ, hΔ, hΔm⟩ := hEv.2.1
    rw [hΔ] at he
    exact hΔm e (by simpa using he)
  · intro r hr e he
    have := hEv.2.2.1 r hr e he
    rw [← hevents] at this
    obtain ⟨e', he', hk⟩ := List.mem_map.mp this
    exact ⟨e', he', hk⟩
  · have := hEv.2.2.2 (by simp)
    rw [hEv.1, ← hevents] at this
    exact this
  · intro d hd
    rw [hdocs] at hd
    obtain ⟨Δ, hΔ, hΔm⟩ := hDc.2.1
    rw [hΔ] at hd
    exact hΔm d (by simpa using hd)
  · intro r hr d hd
    have := hDc.2.2.1 r hr d hd
    rw [← hdocs] at this
    obtain ⟨d', hd', hk⟩ := List.mem_map.mp this
    exact ⟨d', hd', hk⟩
  · have := hDc.2.2.2 (by simp)
    rw [hDc.1, ← hdocs] at this
    exact this
  · intro a ha
    rw [hactors] at ha
    obtain ⟨Δ, hΔ, hΔm⟩ := hAc.2.1
    rw [hΔ] at ha
    exact hΔm a (by simpa using ha)
  · intro r hr a ha
    have := hAc.2.2.1 r hr a ha
    rw [← hactors] at this
    obtain ⟨a', ha', hk⟩ := List.mem_map.mp this
    exact ⟨a', ha', hk⟩
  · have := hAc.2.2.2 (by simp)
    rw [hAc.1, ← hactors] at this
    exact this
  · intro x hx
    rw [hexc] at hx
    obtain ⟨Δ, hΔ, hΔm⟩ := hEx.2.1
    rw [hΔ] at hx
    exact hΔm x (by simpa using hx)
  · intro r hr x hx
    have := hEx.2.2.1 r hr x hx
    rw [← hexc] at this
    obtain ⟨x', hx', hk⟩ := List.mem_map.mp this
    exact ⟨x', hx', hk⟩
  · have := hEx.2.2.2 (by simp)
    rw [hEx.1, ← hexc] at this
    exact this

/-- C9: `askAI` never throws: with the API key present and a non-blank
question, a failing language-model call yields the fixed fallback string, a
missing or empty message content yields the fixed decline string, and a
nonempty content is returned as is; a failed deep-search lookup for one term
is dropped while every successful term's results still contribute (by
dedup key) to the assembled context, which consists exactly of the successful
lookups' items. -/
theorem askAI_failure_semantics (dsF : String → Option DeepSearchResult)
    (chatF : List Rel → String → Option DeepSearchResult → ChatOutcome)
    (question : String) (rels : List Rel) (hq : jsTrim question ≠ "") :
    (chatF rels question (searchPhase dsF question) = ChatOutcome.fail →
      askAI true dsF chatF question rels
        = "I'm invoking my Fifth Amendment rights on that one.")
    ∧ (chatF rels question (searchPhase dsF question) = ChatOutcome.ok none →
      askAI true dsF chatF question rels = "I decline to answer that question.")
    ∧ (chatF rels question (searchPhase dsF question) = ChatOutcome.ok (some "") →
      askAI true dsF chatF question rels = "I decline to answer that question.")
    ∧ (∀ s, chatF rels question (searchPhase dsF question) = ChatOutcome.ok (some s) →
      s ≠ "" → askAI true dsF chatF question rels = s)
    ∧ (∀ t ∈ searchedTermsOf question, ∀ r, dsF t = some r →
      ∃ m, searchPhase dsF question = some m
        ∧ (∀ e ∈ r.events, ∃ e' ∈ m.events, e'.id = e.id)
        ∧ (∀ d ∈ r.documents, ∃ d' ∈ m.documents, d'.doc_id = d.doc_id)
        ∧ (∀ a ∈ r.actors, ∃ a' ∈ m.actors, a'.name = a.name)
        ∧ (∀ x ∈ r.excerpts, ∃ x' ∈ m.excerpts, excerptKey x' = excerptKey x))
    ∧ (∀ m, searchPhase dsF question = some m →
      (∀ e ∈ m.events, ∃ t ∈ searchedTermsOf question, ∃ r, dsF t = some r ∧ e ∈ r.events)
      ∧ (∀ d ∈ m.documents,
          ∃ t ∈ searchedTermsOf question, ∃ r, dsF t = some r ∧ d ∈ r.documents)
      ∧ (∀ a ∈ m.actors,
          ∃ t ∈ searchedTermsOf question, ∃ r, dsF t = some r ∧ a ∈ r.actors)
      ∧ (∀ x ∈ m.excerpts,
          ∃ t ∈ searchedTermsOf question, ∃ r, dsF t = some r ∧ x ∈ r.excerpts)
      ∧ (m.events.map (fun e => e.id)).Nodup
      ∧ (m.documents.map (fun d => d.doc_id)).Nodup
      ∧ (m.actors.map (fun a => a.name)).Nodup
      ∧ (m.excerpts.map excerptKey).Nodup) := by
  have hask : ∀ out, chatF rels question (searchPhase dsF question) = out →
      askAI true dsF chatF question rels
        = match out with
          | ChatOutcome.fail => "I'm invoking my Fifth Amendment rights on that one."
          | ChatOutcome.ok none => "I decline to answer that question."
          | ChatOutcome.ok (some s) =>
            if s = "" then "I decline to answer that question." else s := by
    intro out hout
    unfold askAI
    rw [if_neg (by simp), if_neg hq, hout]
  refine ⟨fun h => hask _ h, fun h => hask _ h, ?_, ?_, ?_, ?_⟩
  · intro h
    have := hask _ h
    simpa using this
  · intro s h hs
    rw [hask _ h]
    show (if s = "" then "I decline to answer that question." else s) = s
    rw [if_neg hs]
  · intro t ht r hr
    have hterms : extractSearchTerms question ≠ [] := by
      intro hc
      have hemp : searchedTermsOf question = [] := by
        rw [searchedTermsOf, sortedTermsOf, hc]
        rfl
      exact absurd (hemp ▸ ht) (List.not_mem_nil t)
    have hrmem : r ∈ (searchedTermsOf question).filterMap dsF :=
      List.mem_filterMap.mpr ⟨t, ht, hr⟩
    have hcond : (extractSearchTerms question).length > 0
        ∧ ((searchedTermsOf question).filterMap dsF).length > 0 :=
      ⟨List.length_pos.mpr hterms, List.length_pos.mpr (List.ne_nil_of_mem hrmem)⟩
    have hsp : searchPhase dsF question
        = some (mergeResults ((searchedTermsOf question).filterMap dsF)
            ((sortedTermsOf question).headD "")) := by
      unfold searchPhase
      rw [if_pos hcond]
    have hms := mergeResults_spec ((searchedTermsOf question).filterMap dsF)
      ((sortedTermsOf question).headD "")
    exact ⟨_, hsp, fun e he => hms.1.2.1 r hrmem e he,
      fun d hd => hms.2.1.2.1 r hrmem d hd,
      fun a ha => hms.2.2.1.2.1 r hrmem a ha,
      fun x hx => hms.2.2.2.2.1 r hrmem x hx⟩
  · intro m hm
    unfold searchPhase at hm
    by_cases hcond : (extractSearchTerms question).length > 0
        ∧ ((searchedTermsOf question).filterMap dsF).length > 0
    · rw [if_pos hcond] at hm
      have hmeq : m = mergeResults ((searchedTermsOf question).filterMap dsF)
          ((sortedTermsOf question).headD "") := (Option.some.inj hm).symm
      subst hmeq
      have hms := mergeResults_spec ((searchedTermsOf question).filterMap dsF)
        ((sortedTermsOf question).headD "")
      refine ⟨?_, ?_, ?_, ?_, hms.1.2.2, hms.2.1.2.2, hms.2.2.1.2.2, hms.2.2.2.2.2⟩
      · intro e he
        obtain ⟨r, hrmem, her⟩ := hms.1.1 e he
        obtain ⟨t, ht, hdt⟩ := List.mem_filterMap.mp hrmem
        exact ⟨t, ht, r, hdt, her⟩
      · intro d hd
        obtain ⟨r, hrmem, hdr⟩ := hms.2.1.1 d hd
        obtain ⟨t, ht, hdt⟩ := List.mem_filterMap.mp hrmem
        exact ⟨t, ht, r, hdt, hdr⟩
      · intro a ha
        obtain ⟨r, hrmem, har⟩ := hms.2.2.1.1 a ha
        obtain ⟨t, ht, hdt⟩ := List.mem_filterMap.mp hrmem
        exact ⟨t, ht, r, hdt, har⟩
      · intro x hx
        obtain ⟨r, hrmem, hxr⟩ := hms.2.2.2.1 x hx
        obtain ⟨t, ht, hdt⟩ := List.mem_filterMap.mp hrmem
        exact ⟨t, ht, r, hdt, hxr⟩
    · rw [if_neg hcond] at hm
      exact Option.noConfusion hm

/-- Witness for C9: with the chat collaborator forced to fail and the lookup
failing for "maxwell" but succeeding for "ghislaine", the answer is the fixed
fallback and the successful term's event still reaches the context. -/
theorem askAI_failure_semantics_witness :
    askAI true
        (fun t => if t = "ghislaine"
          then some ⟨[⟨7, "flight log"⟩], [], [], [], "ghislaine", 0⟩ else none)
        (fun _ _ _ => ChatOutcome.fail) "who is ghislaine maxwell" []
      = "I'm invoking my Fifth Amendment rights on that one."
    ∧ ∃ m, searchPhase (fun t => if t = "ghislaine"
          then some ⟨[⟨7, "flight log"⟩], [], [], [], "ghislaine", 0⟩ else none)
          "who is ghislaine maxwell" = some m
        ∧ ∃ e' ∈ m.events, e'.id = 7 := by
  have h := askAI_failure_semantics
    (fun t => if t = "ghislaine"
      then some ⟨[⟨7, "flight log"⟩], [], [], [], "ghislaine", 0⟩ else none)
    (fun _ _ _ => ChatOutcome.fail) "who is ghislaine maxwell" [] (by decide)
  refine ⟨h.1 rfl, ?_⟩
  obtain ⟨m, hm, hev, _⟩ := h.2.2.2.2.1 "ghislaine" (by decide)
    ⟨[⟨7, "flight log"⟩], [], [], [], "ghislaine", 0⟩ (by decide)
  exact ⟨m, hm, hev ⟨7, "flight log"⟩ (by decide)⟩

/-- C10: with an API key configured and a blank (empty or all-whitespace)
question, `askAI` returns the fixed prompt string for every deep-search and
language-model collaborator — in particular its result does not depend on
either collaborator, which is never consulted. -/
theorem askAI_blank_question (dsF : String → Option DeepSearchResult)
    (chatF : List Rel → String → Option DeepSearchResult → ChatOutcome)
    (question : String) (rels : List Rel) (hq : jsTrim question = "") :
    askAI true dsF chatF question rels = "What would you like to know?" := by
  unfold askAI
  rw [if_neg (by simp), if_pos hq]

/-- Witness for C10 at a whitespace-only question. -/
theorem askAI_blank_question_witness :
    askAI true (fun _ => none) (fun _ _ _ => ChatOutcome.fail) "   " []
      = "What would you like to know?" :=
  askAI_blank_question (fun _ => none) (fun _ _ _ => ChatOutcome.fail) "   " []
    (by decide)

/-! ## C7: Sidebar filter handlers and their debounce behavior

The timer side effects (`setTimeout(…, 2000)` / `clearTimeout`) are embedded
as explicit state: a pending timer is its absolute deadline plus the captured
value, events carry their timestamp, and timers whose deadline has passed fire
before the next event is handled (and at the end of the run).  The upstream
`onYearRangeChange` / `onLimitChange` / `onMaxHopsChange` callbacks — which
trigger the dependent recompute chain — are recorded in an `applied` log with
the time at which they run. -/
inductive FilterAction where
  | yearRange : Int × Int → FilterAction
  | limit : Int → FilterAction
  | maxHops : Option Int → FilterAction
deriving DecidableEq, Repr

inductive UserAction where
  | yearRange : Int × Int → UserAction
  | limit : Int → UserAction
  | maxHops : Int → UserAction
deriving DecidableEq, Repr

/-- A user interaction at an absolute time (milliseconds). -/
structure UserEvent where
  t : Nat
  act : UserAction
deriving DecidableEq, Repr

structure SidebarState where
  localYearRange : Int × Int
  yearTimer : Option (Nat × (Int × Int))
  localLimit : Int
  limitTimer : Option (Nat × Int)
  applied : List (Nat × FilterAction)
deriving DecidableEq, Repr

/-- Fire every pending timer whose deadline has been reached. -/
def fireTimers (now : Nat) (st : SidebarState) : SidebarState :=
  let st1 := match st.yearTimer with
    | some (d, v) =>
      if d ≤ now then
        { st with
          applied := st.applied ++ [(d, FilterAction.yearRange v)]
          yearTimer := none }
      else st
    | none => st
  match st1.limitTimer with
  | some (d, v) =>
    if d ≤ now then
      { st1 with
        applied := st1.applied ++ [(d, FilterAction.limit v)]
        limitTimer := none }
    else st1
  | none => st1

/-- One user interaction: due timers fire first, then the handler runs.
`handleYearRangeChange` and `handleLimitChange` echo the value locally and
re-arm their 2000 ms timer; the `maxHops` slider `onChange` calls
`onMaxHopsChange(value === 6 ? null : value)` immediately. -/
def stepEvent (st : SidebarState) (e : UserEvent) : SidebarState :=
  let st' := fireTimers e.t st
  match e.act with
  | UserAction.yearRange v =>
    { st' with localYearRange := v, yearTimer := some (e.t + 2000, v) }
  | UserAction.limit v =>
    { st' with localLimit := v, limitTimer := some (e.t + 2000, v) }
  | UserAction.maxHops v =>
    { st' with applied := st'.applied
        ++ [(e.t, FilterAction.maxHops (if v = 6 then none else some v))] }

def initSidebar (yr0 : Int × Int) (l0 : Int) : SidebarState :=
  ⟨yr0, none, l0, none, []⟩

/-- Run a chronological event sequence and let time advance to `T`. -/
def runSidebar (yr0 : Int × Int) (l0 : Int) (events : List UserEvent) (T : Nat) :
    SidebarState :=
  fireTimers T (events.foldl stepEvent (initSidebar yr0 l0))

/-- C7 counterexample: a `maxHops` slider change is applied at the very moment
the event fires (time 0), not after a 2-second debounce delay — refuting
"every change to a filter field is applied only after a fixed 2-second
debounce delay". -/
theorem maxHops_applied_immediately :
    (runSidebar (2015, 2025) 1000 [⟨0, UserAction.maxHops 3⟩] 0).applied
      = [(0, FilterAction.maxHops (some 3))] := by decide

/-- C7 (amended): the year-range and result-limit fields are debounced: the
control echoes the value immediately while nothing is applied yet, and a
burst `[v1, v2, v3]` faster than the 2000 ms window collapses to exactly one
application, of `v3`, at 2000 ms after the last change (last-write-wins). -/
theorem debounced_fields_collapse (yr0 : Int × Int) (l0 : Int)
    (t1 t2 t3 T : Nat) (h12 : t1 ≤ t2) (h23 : t2 ≤ t3)
    (hd2 : t2 < t1 + 2000) (hd3 : t3 < t2 + 2000) (hT : t3 + 2000 ≤ T) :
    (∀ v : Int × Int,
      (stepEvent (initSidebar yr0 l0) ⟨t1, UserAction.yearRange v⟩).localYearRange = v
      ∧ (stepEvent (initSidebar yr0 l0) ⟨t1, UserAction.yearRange v⟩).applied = [])
    ∧ (∀ v1 v2 v3 : Int × Int,
      (runSidebar yr0 l0 [⟨t1, UserAction.yearRange v1⟩, ⟨t2, UserAction.yearRange v2⟩,
        ⟨t3, UserAction.yearRange v3⟩] T).applied
        = [(t3 + 2000, FilterAction.yearRange v3)])
    ∧ (∀ v : Int,
      (stepEvent (initSidebar yr0 l0) ⟨t1, UserAction.limit v⟩).localLimit = v
      ∧ (stepEvent (initSidebar yr0 l0) ⟨t1, UserAction.limit v⟩).applied = [])
    ∧ (∀ v1 v2 v3 : Int,
      (runSidebar yr0 l0 [⟨t1, UserAction.limit v1⟩, ⟨t2, UserAction.limit v2⟩,
        ⟨t3, UserAction.limit v3⟩] T).applied
        = [(t3 + 2000, FilterAction.limit v3)]) := by
  refine ⟨?_, ?_, ?_, ?_⟩
  · intro v
    exact ⟨rfl, rfl⟩
  · intro v1 v2 v3
    unfold runSidebar
    simp only [List.foldl_cons, List.foldl_nil]
    have e1 : stepEvent (initSidebar yr0 l0) ⟨t1, UserAction.yearRange v1⟩
        = ⟨v1, some (t1 + 2000, v1), l0, none, []⟩ := rfl
    rw [e1]
    have e2 : stepEvent ⟨v1, some (t1 + 2000, v1), l0, none, []⟩
        ⟨t2, UserAction.yearRange v2⟩
        = ⟨v2, some (t2 + 2000, v2), l0, none, []⟩ := by
      simp only [stepEvent, fireTimers]
      rw [if_neg (show ¬ t1 + 2000 ≤ t2 by omega)]
    rw [e2]
    have e3 : stepEvent ⟨v2, some (t2 + 2000, v2), l0, none, []⟩
        ⟨t3, UserAction.yearRange v3⟩
        = ⟨v3, some (t3 + 2000, v3), l0, none, []⟩ := by
      simp only [stepEvent, fireTimers]
      rw [if_neg (show ¬ t2 + 2000 ≤ t3 by omega)]
    rw [e3]
    simp only [fireTimers]
    rw [if_pos (show t3 + 2000 ≤ T by omega)]
    simp
  · intro v
    exact ⟨rfl, rfl⟩
  · intro v1 v2 v3
    unfold runSidebar
    simp only [List.foldl_cons, List.foldl_nil]
    have e1 : stepEvent (initSidebar yr0 l0) ⟨t1, UserAction.limit v1⟩
        = ⟨yr0, none, v1, some (t1 + 2000, v1), []⟩ := rfl
    rw [e1]
    have e2 : stepEvent ⟨yr0, none, v1, some (t1 + 2000, v1), []⟩
        ⟨t2, UserAction.limit v2⟩
        = ⟨yr0, none, v2, some (t2 + 2000, v2), []⟩ := by
      simp only [stepEvent, fireTimers]
      rw [if_neg (show ¬ t1 + 2000 ≤ t2 by omega)]
    rw [e2]
    have e3 : stepEvent ⟨yr0, none, v2, some (t2 + 2000, v2), []⟩
        ⟨t3, UserAction.limit v3⟩
        = ⟨yr0, none, v3, some (t3 + 2000, v3), []⟩ := by
      simp only [stepEvent, fireTimers]
      rw [if_neg (show ¬ t2 + 2000 ≤ t3 by omega)]
    rw [e3]
    simp only [fireTimers]
    rw [if_pos (show t3 + 2000 ≤ T by omega)]
    simp

/-- Witness for the amended C7 at a concrete burst of three year-range changes
inside the 2000 ms window. -/
theorem debounced_fields_collapse_witness :
    (runSidebar (2015, 2025) 1000
      [⟨0, UserAction.yearRange (1990, 2000)⟩, ⟨500, UserAction.yearRange (1991, 2001)⟩,
        ⟨1000, UserAction.yearRange (1992, 2002)⟩] 3000).applied
      = [(3000, FilterAction.yearRange (1992, 2002))] :=
  (debounced_fields_collapse (2015, 2025) 1000 0 500 1000 3000 (by decide) (by decide)
    (by decide) (by decide) (by decide)).2.1 (1990, 2000) (1991, 2001) (1992, 2002)

end Epsdoc
